import Mathlib

/-!
Verification of the onto-mcp schema-card core: a shallow embedding of
`ontorag/schema_card.py` (merge), `ontorag/proposal_aggregator.py`
(aggregation), `ontorag/ontology_catalog.py` (baseline catalog /
composition), `ontorag/instances_to_ttl.py` (stable instance IRIs) and
the `app.py` registration endpoint, together with proofs of the spec's
testable properties.

Python strings are modelled as Lean `String`; `str.strip()` as `pstrip`
(ASCII whitespace), `str.lower()` as `plower` (ASCII lowering, the case
relevant to the identifiers handled here), the Python truthiness idiom
`a or b` on strings as `orS`.  Dictionaries with insertion order are
modelled as association lists with in-place update.  `sorted(...)` is
modelled by insertion sort (a stable sort, like Python's).  The merge
function's call to the clock (`_now_iso`) is modelled by an explicit
`now` argument.
-/

namespace OntoMcp

/-- ASCII whitespace, as stripped by Python's `str.strip()` on the
inputs occurring here. -/
def isWs (c : Char) : Bool :=
  c = ' ' || c = '\t' || c = '\n' || c = '\r'

/-- `str.strip()` on the character list: drop whitespace on both ends. -/
def stripChars (l : List Char) : List Char :=
  ((l.dropWhile isWs).reverse.dropWhile isWs).reverse

/-- Python `s.strip()`. -/
def pstrip (s : String) : String :=
  ⟨stripChars s.data⟩

/-- ASCII `str.lower()` on one character. -/
def lowerChar (c : Char) : Char :=
  match c with
  | 'A' => 'a' | 'B' => 'b' | 'C' => 'c' | 'D' => 'd' | 'E' => 'e'
  | 'F' => 'f' | 'G' => 'g' | 'H' => 'h' | 'I' => 'i' | 'J' => 'j'
  | 'K' => 'k' | 'L' => 'l' | 'M' => 'm' | 'N' => 'n' | 'O' => 'o'
  | 'P' => 'p' | 'Q' => 'q' | 'R' => 'r' | 'S' => 's' | 'T' => 't'
  | 'U' => 'u' | 'V' => 'v' | 'W' => 'w' | 'X' => 'x' | 'Y' => 'y'
  | 'Z' => 'z'
  | c => c

/-- Python `s.lower()` (ASCII). -/
def plower (s : String) : String :=
  ⟨s.data.map lowerChar⟩

/-- Python `a or b` for strings: `b` when `a` is falsy (empty). -/
def orS (a b : String) : String :=
  if a = "" then b else a

/-- Python `d.get(k) or default` for an optional string value:
`None` and `""` both fall through to the default. -/
def orOptS (a : Option String) (b : String) : String :=
  orS (a.getD "") b

/-- Python `s[:n]` (by code points). -/
def pstake (n : Nat) (s : String) : String :=
  ⟨s.data.take n⟩

/-- Order-preserving deduplication keeping the first occurrence,
i.e. Python's `list(dict.fromkeys(xs))`. -/
def firstDedupAux (seen : List String) : List String → List String
  | [] => []
  | a :: t =>
    if a ∈ seen then firstDedupAux seen t
    else a :: firstDedupAux (a :: seen) t

/-- `list(dict.fromkeys(xs))`. -/
def firstDedup (l : List String) : List String :=
  firstDedupAux [] l

/-- Python's `<` on two characters: by code point. -/
def charLtB (a b : Char) : Bool :=
  decide (a.toNat < b.toNat)

/-- Python's `<=` on two strings as character lists: lexicographic by
code point, a prefix comparing below its extensions. -/
def strLeB : List Char → List Char → Bool
  | [], _ => true
  | _ :: _, [] => false
  | a :: s, b :: t => if a = b then strLeB s t else charLtB a b

/-- Python string comparison `a <= b`. -/
def sLeB (a b : String) : Bool :=
  strLeB a.data b.data

/-- A computable total order, as Python's `sorted` requires of its
keys.  (Mathlib's order on `String` is defined by well-founded
recursion and does not reduce in the kernel, so the Python orders used
here are packaged in this Boolean class instead.) -/
class PyOrd (κ : Type) where
  leB : κ → κ → Bool
  total : ∀ a b, leB a b = true ∨ leB b a = true
  trans : ∀ a b c, leB a b = true → leB b c = true → leB a c = true
  antisymm : ∀ a b, leB a b = true → leB b a = true → a = b

theorem char_toNat_ne {a b : Char} (h : a ≠ b) : a.toNat ≠ b.toNat :=
  fun hh => h (Char.ext (UInt32.ext hh))

theorem strLeB_total : ∀ a b : List Char, strLeB a b = true ∨ strLeB b a = true := by
  intro a
  induction a with
  | nil =>
    intro b
    exact Or.inl rfl
  | cons x s ih =>
    intro b
    cases b with
    | nil => exact Or.inr rfl
    | cons y t =>
      by_cases hxy : x = y
      · subst hxy
        rcases ih t with h | h
        · left
          rw [strLeB, if_pos rfl]
          exact h
        · right
          rw [strLeB, if_pos rfl]
          exact h
      · have hne := char_toNat_ne hxy
        rcases Nat.lt_or_ge x.toNat y.toNat with h | h
        · left
          rw [strLeB, if_neg hxy, charLtB]
          exact decide_eq_true h
        · right
          rw [strLeB, if_neg (fun hh => hxy hh.symm), charLtB]
          exact decide_eq_true (by omega)

theorem strLeB_trans : ∀ a b c : List Char,
    strLeB a b = true → strLeB b c = true → strLeB a c = true := by
  intro a
  induction a with
  | nil =>
    intro b c _ _
    rfl
  | cons x s ih =>
    intro b c hab hbc
    cases b with
    | nil => exact absurd hab (by rw [strLeB]; simp)
    | cons y t =>
      cases c with
      | nil => exact absurd hbc (by rw [strLeB]; simp)
      | cons z u =>
        by_cases hxy : x = y
        · subst hxy
          rw [strLeB, if_pos rfl] at hab
          by_cases hyz : x = z
          · subst hyz
            rw [strLeB, if_pos rfl] at hbc ⊢
            exact ih t u hab hbc
          · rw [strLeB, if_neg hyz] at hbc ⊢
            exact hbc
        · rw [strLeB, if_neg hxy, charLtB, decide_eq_true_eq] at hab
          by_cases hyz : y = z
          · subst hyz
            rw [strLeB, if_neg hxy, charLtB]
            exact decide_eq_true hab
          · rw [strLeB, if_neg hyz, charLtB, decide_eq_true_eq] at hbc
            have hxz : x ≠ z := by
              intro hh
              subst hh
              omega
            rw [strLeB, if_neg hxz, charLtB]
            exact decide_eq_true (by omega)

theorem strLeB_antisymm : ∀ a b : List Char,
    strLeB a b = true → strLeB b a = true → a = b := by
  intro a
  induction a with
  | nil =>
    intro b _ hba
    cases b with
    | nil => rfl
    | cons y t => exact absurd hba (by rw [strLeB]; simp)
  | cons x s ih =>
    intro b hab hba
    cases b with
    | nil => exact absurd hab (by rw [strLeB]; simp)
    | cons y t =>
      by_cases hxy : x = y
      · subst hxy
        rw [strLeB, if_pos rfl] at hab hba
        rw [ih t hab hba]
      · rw [strLeB, if_neg hxy, charLtB, decide_eq_true_eq] at hab
        rw [strLeB, if_neg (fun hh => hxy hh.symm), charLtB,
          decide_eq_true_eq] at hba
        omega

instance : PyOrd String where
  leB := sLeB
  total a b := strLeB_total a.data b.data
  trans a b c := strLeB_trans a.data b.data c.data
  antisymm a b hab hba := String.ext (strLeB_antisymm a.data b.data hab hba)

/-- Python tuple comparison, lexicographic from the left. -/
instance pairPyOrd {κ₁ κ₂ : Type} [DecidableEq κ₁] [PyOrd κ₁] [PyOrd κ₂] :
    PyOrd (κ₁ × κ₂) where
  leB a b := if a.1 = b.1 then PyOrd.leB a.2 b.2 else PyOrd.leB a.1 b.1
  total a b := by
    dsimp only
    by_cases h : a.1 = b.1
    · rw [if_pos h, if_pos h.symm]
      exact PyOrd.total a.2 b.2
    · rw [if_neg h, if_neg (fun hh => h hh.symm)]
      exact PyOrd.total a.1 b.1
  trans a b c := by
    dsimp only
    intro hab hbc
    by_cases h1 : a.1 = b.1
    · rw [if_pos h1] at hab
      by_cases h2 : b.1 = c.1
      · rw [if_pos h2] at hbc
        rw [if_pos (h1.trans h2)]
        exact PyOrd.trans _ _ _ hab hbc
      · rw [if_neg h2] at hbc
        rw [if_neg (fun hh => h2 (h1 ▸ hh)), h1]
        exact hbc
    · rw [if_neg h1] at hab
      by_cases h2 : b.1 = c.1
      · rw [if_neg (fun hh => h1 (hh.trans h2.symm)), ← h2]
        exact hab
      · rw [if_neg h2] at hbc
        have hac : a.1 ≠ c.1 := by
          intro hh
          exact h1 (PyOrd.antisymm a.1 b.1 hab (hh ▸ hbc))
        rw [if_neg hac]
        exact PyOrd.trans _ _ _ hab hbc
  antisymm a b := by
    dsimp only
    intro hab hba
    by_cases h : a.1 = b.1
    · rw [if_pos h] at hab
      rw [if_pos h.symm] at hba
      exact Prod.ext h (PyOrd.antisymm a.2 b.2 hab hba)
    · rw [if_neg h] at hab
      rw [if_neg (fun hh => h hh.symm)] at hba
      exact absurd (PyOrd.antisymm a.1 b.1 hab hba) h

/-- Comparison by a key: the relation Python's `sorted(..., key=...)`
sorts by. -/
def keyLe {α : Type} {κ : Type} [PyOrd κ] (key : α → κ) (a b : α) : Prop :=
  PyOrd.leB (key a) (key b) = true

instance {α κ : Type} [PyOrd κ] (key : α → κ) : DecidableRel (keyLe key) :=
  fun a b => inferInstanceAs (Decidable (PyOrd.leB (key a) (key b) = true))

instance {α κ : Type} [PyOrd κ] (key : α → κ) : IsTotal α (keyLe key) :=
  ⟨fun a b => PyOrd.total (key a) (key b)⟩

instance {α κ : Type} [PyOrd κ] (key : α → κ) : IsTrans α (keyLe key) :=
  ⟨fun _ _ _ h h' => PyOrd.trans _ _ _ h h'⟩

/-- Python `sorted(l, key=key)` (insertion sort is stable, as Python's
sort is). -/
def sortOn {α κ : Type} [PyOrd κ] (key : α → κ) (l : List α) : List α :=
  l.insertionSort (keyLe key)

/-- `sorted(xs)` for plain string lists. -/
def sortStr (l : List String) : List String :=
  sortOn id l

/-- Python `sorted(set(xs))`: the sorted duplicate-free list of the
elements of `xs`. -/
def sortedSet (l : List String) : List String :=
  sortStr l.dedup

/-- Python `sorted(set(xs) | set(ys))`. -/
def sortedUnion (xs ys : List String) : List String :=
  sortedSet (xs ++ ys)

/-- Lookup in an insertion-ordered association list (Python dict). -/
def lookupA {κ ν : Type} [DecidableEq κ] (k : κ) : List (κ × ν) → Option ν
  | [] => none
  | (k', v) :: t => if k' = k then some v else lookupA k t

/-- In-place update of the (first) binding of `k`, keeping its
position — the semantics of assigning to an existing Python dict key. -/
def updateA {κ ν : Type} [DecidableEq κ] (k : κ) (f : ν → ν) :
    List (κ × ν) → List (κ × ν)
  | [] => []
  | (k', v) :: t => if k' = k then (k', f v) :: t else (k', v) :: updateA k f t

/-- Python `d[k] = v`: replace in place when present, append otherwise. -/
def assignA {κ ν : Type} [DecidableEq κ] (k : κ) (v : ν)
    (m : List (κ × ν)) : List (κ × ν) :=
  if (lookupA k m).isSome then updateA k (fun _ => v) m else m ++ [(k, v)]

/-- `list(d.values())` of a Python dict. -/
def valuesA {κ ν : Type} (m : List (κ × ν)) : List ν :=
  m.map Prod.snd

/-! ## Data model (schema_card.py, proposal shapes) -/

/-- A class entry of a schema card (all keys present, as the merger
always writes them). -/
structure ClassEntry where
  name : String
  description : String
  origin : String
deriving DecidableEq

/-- A datatype- or object-property entry of a schema card. -/
structure PropEntry where
  name : String
  domain : String
  range : String
  description : String
  origin : String
deriving DecidableEq

/-- An event entry of a schema card. -/
structure EventEntry where
  name : String
  actors : List String
  effects : List String
  description : String
  origin : String
deriving DecidableEq

/-- An alias group: `{"names": [...], "rationale": "..."}`. -/
structure AliasGroup where
  names : List String
  rationale : String
deriving DecidableEq

/-- A schema card.  `ns` models the `"namespace"` key (a Lean keyword). -/
structure SchemaCard where
  version : String
  ns : String
  classes : List ClassEntry
  datatype_properties : List PropEntry
  object_properties : List PropEntry
  events : List EventEntry
  aliases : List AliasGroup
  warnings : List String
deriving DecidableEq

/-- A class entry of an aggregated proposal, as read by the merger:
the `origin` key may be absent (`c.get("origin", "induced")`). -/
structure PClass where
  name : String
  description : String
  origin : Option String
deriving DecidableEq

/-- A property entry of an aggregated proposal, as read by the merger. -/
structure PProp where
  name : String
  domain : String
  range : String
  description : String
  origin : Option String
deriving DecidableEq

/-- An event entry of an aggregated proposal; the merger tests
`"description" in e`, so the description is optional. -/
structure PEvent where
  name : String
  actors : List String
  effects : List String
  description : Option String
  origin : Option String
deriving DecidableEq

/-- An aggregated proposal, as consumed by the merger. -/
structure AggProposal where
  classes : List PClass
  datatype_properties : List PProp
  object_properties : List PProp
  events : List PEvent
  merge_suggestions : List AliasGroup
  warnings : List String
deriving DecidableEq

/-! ## schema_card.py -/

/-- `DT_RANGES` (membership is all that is used of the Python set). -/
def DT_RANGES : List String :=
  ["string", "number", "integer", "boolean", "date", "datetime", "enum", "any"]

/-- The default namespace constant of `_ensure_schema_card_defaults`. -/
def defaultNamespace : String := "http://www.example.com/biz/"

/-- `_key_class`. -/
def keyClass (name : String) : String :=
  plower (pstrip name)

/-- `_key_prop`. -/
def keyProp (domain name rng : String) : String × String × String :=
  (plower (pstrip domain), plower (pstrip name), plower (pstrip rng))

/-- `_merge_desc`: both sides normalized; when both are non-empty the
strictly longer one wins (ties keep the old), otherwise whichever is
non-empty. -/
def mergeDesc (old new : String) : String :=
  if pstrip old ≠ "" ∧ pstrip new ≠ "" then
    (if (pstrip old).length < (pstrip new).length then pstrip new else pstrip old)
  else orS (pstrip new) (pstrip old)

/-- The classes loop over the previous card: unconditional dict
assignment, description normalized. -/
def clsPrevStep (m : List (String × ClassEntry)) (c : ClassEntry) :
    List (String × ClassEntry) :=
  let k := keyClass c.name
  if k = "" then m
  else assignA k { name := c.name, description := pstrip c.description,
                   origin := c.origin } m

/-- The classes loop over the proposal: insert or merge description. -/
def clsPropStep (m : List (String × ClassEntry)) (c : PClass) :
    List (String × ClassEntry) :=
  let k := keyClass c.name
  if k = "" then m
  else match lookupA k m with
    | none => m ++ [(k, { name := c.name, description := pstrip c.description,
                          origin := c.origin.getD "induced" })]
    | some _ => updateA k
        (fun v => { v with description := mergeDesc v.description c.description }) m

/-- The datatype-property loop over the previous card (range taken
verbatim). -/
def dtPrevStep (m : List ((String × String × String) × PropEntry)) (p : PropEntry) :
    List ((String × String × String) × PropEntry) :=
  let k := keyProp p.domain p.name p.range
  if k.1 = "" ∨ k.2.1 = "" then m
  else assignA k { name := p.name, domain := p.domain, range := p.range,
                   description := pstrip p.description, origin := p.origin } m

/-- Range normalization for incoming proposal datatype properties:
`(p.get("range","any") or "any").lower()`, coerced to `"any"` when not
a member of `DT_RANGES`. -/
def normRange (r : String) : String :=
  let rng := plower (orS r "any")
  if rng ∈ DT_RANGES then rng else "any"

/-- The datatype-property loop over the proposal. -/
def dtPropStep (m : List ((String × String × String) × PropEntry)) (p : PProp) :
    List ((String × String × String) × PropEntry) :=
  let rng := normRange p.range
  let k := keyProp p.domain p.name rng
  if k.1 = "" ∨ k.2.1 = "" then m
  else match lookupA k m with
    | none => m ++ [(k, { name := p.name, domain := p.domain, range := rng,
                          description := pstrip p.description,
                          origin := p.origin.getD "induced" })]
    | some _ => updateA k
        (fun v => { v with description := mergeDesc v.description p.description }) m

/-- The object-property loop over the previous card. -/
def opPrevStep (m : List ((String × String × String) × PropEntry)) (p : PropEntry) :
    List ((String × String × String) × PropEntry) :=
  let k := keyProp p.domain p.name p.range
  if k.1 = "" ∨ k.2.1 = "" ∨ k.2.2 = "" then m
  else assignA k { name := p.name, domain := p.domain, range := p.range,
                   description := pstrip p.description, origin := p.origin } m

/-- The object-property loop over the proposal. -/
def opPropStep (m : List ((String × String × String) × PropEntry)) (p : PProp) :
    List ((String × String × String) × PropEntry) :=
  let k := keyProp p.domain p.name p.range
  if k.1 = "" ∨ k.2.1 = "" ∨ k.2.2 = "" then m
  else match lookupA k m with
    | none => m ++ [(k, { name := p.name, domain := p.domain, range := p.range,
                          description := pstrip p.description,
                          origin := p.origin.getD "induced" })]
    | some _ => updateA k
        (fun v => { v with description := mergeDesc v.description p.description }) m

/-- The events loop over the previous card. -/
def evPrevStep (m : List (String × EventEntry)) (e : EventEntry) :
    List (String × EventEntry) :=
  let k := plower (pstrip e.name)
  if k = "" then m
  else assignA k { name := e.name, actors := e.actors, effects := e.effects,
                   description := pstrip e.description, origin := e.origin } m

/-- The events loop over the proposal: first sighting stores the
actors/effects lists verbatim; a second sighting set-unions and sorts. -/
def evPropStep (m : List (String × EventEntry)) (e : PEvent) :
    List (String × EventEntry) :=
  let k := plower (pstrip e.name)
  if k = "" then m
  else match lookupA k m with
    | none => m ++ [(k, { name := e.name, actors := e.actors, effects := e.effects,
                          description := match e.description with
                            | some d => pstrip d
                            | none => "",
                          origin := e.origin.getD "induced" })]
    | some _ => updateA k (fun v =>
        { v with actors := sortedUnion v.actors e.actors,
                 effects := sortedUnion v.effects e.effects,
                 description := match e.description with
                   | some d => mergeDesc v.description d
                   | none => v.description }) m

/-- State of the `add_alias` closure: the `seen_alias` set and the
accumulated alias list. -/
structure AliasSt where
  seen : List (List String)
  out : List AliasGroup

/-- `add_alias(names, rationale)`. -/
def addAlias (st : AliasSt) (names : List String) (rationale : String) : AliasSt :=
  let norm := names.filterMap (fun n => if pstrip n = "" then none else some (pstrip n))
  let key := sortStr (norm.map plower)
  if norm = [] ∨ key ∈ st.seen then st
  else { seen := key :: st.seen,
         out := st.out ++ [{ names := norm, rationale := pstrip rationale }] }

/-- Sanity-check warning for a datatype property with unknown domain. -/
def dtWarnStr (p : PropEntry) : String :=
  "DatatypeProperty " ++ p.name ++ " refers to unknown domain class " ++ p.domain ++ "."

/-- Sanity-check warning for an object property with unknown domain. -/
def opDomWarnStr (p : PropEntry) : String :=
  "ObjectProperty " ++ p.name ++ " refers to unknown domain class " ++ p.domain ++ "."

/-- Sanity-check warning for an object property with unknown range. -/
def opRngWarnStr (p : PropEntry) : String :=
  "ObjectProperty " ++ p.name ++ " refers to unknown range class " ++ p.range ++ "."

/-- `{c["name"].lower() for c in out["classes"] if c.get("name")}`
(membership is all that is used). -/
def classNamesLower (classes : List ClassEntry) : List String :=
  classes.filterMap (fun c => if c.name = "" then none else some (plower c.name))

/-- The warnings assembly of `schema_card_from_proposal`: input
warnings normalized and first-seen-deduplicated, then the sanity-check
pass over the merged properties, deduplicated again. -/
def mergeWarnings (prevW propW : List String) (classes : List ClassEntry)
    (dt op : List PropEntry) : List String :=
  let base := firstDedup
    ((prevW ++ propW).filterMap (fun w => if pstrip w = "" then none else some (pstrip w)))
  let cn := classNamesLower classes
  let dtW := dt.filterMap (fun p =>
    if p.domain ≠ "" ∧ plower p.domain ∉ cn then some (dtWarnStr p) else none)
  let opW := op.flatMap (fun p =>
    (if p.domain ≠ "" ∧ plower p.domain ∉ cn then [opDomWarnStr p] else []) ++
    (if p.range ≠ "" ∧ plower p.range ∉ cn then [opRngWarnStr p] else []))
  firstDedup (base ++ dtW ++ opW)

/-- The sort key of the property lists:
`(x["domain"].lower(), x["name"].lower(), x["range"].lower())`. -/
def propSortKey (p : PropEntry) : String × String × String :=
  (plower p.domain, plower p.name, plower p.range)

/-- `schema_card_from_proposal` (schema_card.py lines 43-263); the
clock read `_now_iso()` is the explicit `now` argument. -/
def schema_card_from_proposal (now : String) (prev : SchemaCard)
    (prop : AggProposal) (nsArg : Option String) : SchemaCard :=
  let clsM := prop.classes.foldl clsPropStep (prev.classes.foldl clsPrevStep [])
  let classes := sortOn (fun x : ClassEntry => plower x.name) (valuesA clsM)
  let dtM := prop.datatype_properties.foldl dtPropStep
    (prev.datatype_properties.foldl dtPrevStep [])
  let dt := sortOn propSortKey (valuesA dtM)
  let opM := prop.object_properties.foldl opPropStep
    (prev.object_properties.foldl opPrevStep [])
  let op := sortOn propSortKey (valuesA opM)
  let evM := prop.events.foldl evPropStep (prev.events.foldl evPrevStep [])
  let evs := sortOn (fun x : EventEntry => plower x.name) (valuesA evM)
  let al := (prop.merge_suggestions.foldl (fun st a => addAlias st a.names a.rationale)
    (prev.aliases.foldl (fun st a => addAlias st a.names a.rationale)
      { seen := [], out := [] })).out
  { version := now,
    ns := orOptS nsArg (orS prev.ns defaultNamespace),
    classes := classes,
    datatype_properties := dt,
    object_properties := op,
    events := evs,
    aliases := al,
    warnings := mergeWarnings prev.warnings prop.warnings classes dt op }

/-- The all-defaults empty schema card (`_ensure_schema_card_defaults({})`),
with the version timestamp explicit. -/
def emptyCard (now : String) : SchemaCard :=
  { version := now, ns := defaultNamespace, classes := [],
    datatype_properties := [], object_properties := [], events := [],
    aliases := [], warnings := [] }

/-! ## proposal_aggregator.py -/

/-- An incoming evidence fragment: a dict with optional
`chunk_id`/`quote`/`text`/`snippet` fields, or a plain string (the
"anything else" fallback also stringifies, so it is the string case). -/
inductive EvidenceIn where
  | obj (chunk_id quote text snippet : Option String)
  | str (s : String)
deriving DecidableEq

/-- A normalized evidence item `{"chunk_id": ..., "quote": ...}`. -/
structure Evidence where
  chunk_id : String
  quote : String
deriving DecidableEq

/-- One item of `_normalize_evidence`. -/
def normEvItem (default_chunk_id : String) (item : EvidenceIn) : Option Evidence :=
  match item with
  | .obj c q t sn =>
    let quote := pstrip (orS (q.getD "") (orS (t.getD "") (sn.getD "")))
    if quote = "" then none else some ⟨orOptS c default_chunk_id, quote⟩
  | .str s =>
    let q := pstrip s
    if q = "" then none else some ⟨default_chunk_id, q⟩

/-- `_normalize_evidence`. -/
def normalizeEvidence (default_chunk_id : String) (ev : List EvidenceIn) :
    List Evidence :=
  ev.filterMap (normEvItem default_chunk_id)

/-- A stored evidence item viewed again as normalizer input, as
`merge_evidence` re-normalizes the existing list. -/
def evToIn (e : Evidence) : EvidenceIn :=
  .obj (some e.chunk_id) (some e.quote) none none

/-- `merge_evidence`: normalize both sides, then append the new items
whose `(chunk_id, quote)` pair is unseen. -/
def mergeEvidence (default_chunk_id : String) (existing : List Evidence)
    (newEv : List EvidenceIn) : List Evidence :=
  let ex := normalizeEvidence default_chunk_id (existing.map evToIn)
  let nw := normalizeEvidence default_chunk_id newEv
  nw.foldl (fun acc e =>
    if acc.any (fun x => x.chunk_id = e.chunk_id ∧ x.quote = e.quote) then acc
    else acc ++ [e]) ex

/-- A class entry inside a chunk proposal's `proposed_additions`
(non-dict garbage entries are skipped by the source and contribute
nothing, so only well-formed entries are modelled). -/
structure CPClass where
  name : String
  description : String
  evidence : List EvidenceIn
deriving DecidableEq

/-- A property entry inside a chunk proposal's `proposed_additions`. -/
structure CPProp where
  name : String
  domain : String
  range : String
  description : String
  evidence : List EvidenceIn
deriving DecidableEq

/-- An event entry inside a chunk proposal's `proposed_additions`. -/
structure CPEvent where
  name : String
  actors : List String
  effects : List String
  description : String
  evidence : List EvidenceIn
deriving DecidableEq

/-- One chunk proposal. -/
structure ChunkProposal where
  chunk_id : String
  warnings : List String
  alias_or_merge_suggestions : List AliasGroup
  classes : List CPClass
  datatype_properties : List CPProp
  object_properties : List CPProp
  events : List CPEvent
deriving DecidableEq

/-- An aggregated class value (the aggregator writes no `origin`). -/
structure AClass where
  name : String
  description : String
  evidence : List Evidence
deriving DecidableEq

/-- An aggregated property value. -/
structure AProp where
  name : String
  domain : String
  range : String
  description : String
  evidence : List Evidence
deriving DecidableEq

/-- An aggregated event value. -/
structure AEvent where
  name : String
  actors : List String
  effects : List String
  description : String
  evidence : List Evidence
deriving DecidableEq

/-- `_key` of proposal_aggregator.py. -/
def aggKey (name : String) : String :=
  plower (pstrip name)

/-- The aggregator's description tie-break: replace when the new
description is non-empty and the old is empty or strictly shorter. -/
def aggDescMerge (old new : String) : String :=
  if new ≠ "" ∧ (old = "" ∨ old.length < new.length) then new else old

/-- The classes loop body of `aggregate_chunk_proposals`. -/
def aggClsStep (cid : String) (m : List (String × AClass)) (c : CPClass) :
    List (String × AClass) :=
  if c.name = "" then m
  else
    let k := aggKey c.name
    match lookupA k m with
    | none => m ++ [(k, ⟨c.name, c.description, normalizeEvidence cid c.evidence⟩)]
    | some _ => updateA k (fun v =>
        { v with description := aggDescMerge v.description c.description,
                 evidence := mergeEvidence cid v.evidence c.evidence }) m

/-- The (identical) datatype- and object-property loop body of
`aggregate_chunk_proposals`. -/
def aggPropStep (cid : String) (m : List ((String × String × String) × AProp))
    (p : CPProp) : List ((String × String × String) × AProp) :=
  if p.domain = "" ∨ p.name = "" ∨ p.range = "" then m
  else
    let k := (aggKey p.domain, aggKey p.name, aggKey p.range)
    match lookupA k m with
    | none => m ++ [(k, ⟨p.name, p.domain, p.range, p.description,
                         normalizeEvidence cid p.evidence⟩)]
    | some _ => updateA k (fun v =>
        { v with description := aggDescMerge v.description p.description,
                 evidence := mergeEvidence cid v.evidence p.evidence }) m

/-- The events loop body of `aggregate_chunk_proposals`. -/
def aggEvStep (cid : String) (m : List (String × AEvent)) (ev : CPEvent) :
    List (String × AEvent) :=
  if ev.name = "" then m
  else
    let k := aggKey ev.name
    match lookupA k m with
    | none => m ++ [(k, ⟨ev.name, ev.actors, ev.effects, ev.description,
                         normalizeEvidence cid ev.evidence⟩)]
    | some _ => updateA k (fun v =>
        { v with actors := sortedUnion v.actors ev.actors,
                 effects := sortedUnion v.effects ev.effects,
                 description := aggDescMerge v.description ev.description,
                 evidence := mergeEvidence cid v.evidence ev.evidence }) m

/-- The running state of the aggregation loop. -/
structure AggState where
  classes : List (String × AClass)
  dprops : List ((String × String × String) × AProp)
  oprops : List ((String × String × String) × AProp)
  events : List (String × AEvent)
  warnings : List String
  merges : List AliasGroup

/-- One iteration of the outer `for cp in chunk_props` loop. -/
def aggChunkStep (st : AggState) (cp : ChunkProposal) : AggState :=
  { classes := cp.classes.foldl (aggClsStep cp.chunk_id) st.classes,
    dprops := cp.datatype_properties.foldl (aggPropStep cp.chunk_id) st.dprops,
    oprops := cp.object_properties.foldl (aggPropStep cp.chunk_id) st.oprops,
    events := cp.events.foldl (aggEvStep cp.chunk_id) st.events,
    warnings := st.warnings ++ cp.warnings,
    merges := st.merges ++ cp.alias_or_merge_suggestions }

/-- The dict returned by `aggregate_chunk_proposals`. -/
structure AggOut where
  classes : List AClass
  datatype_properties : List AProp
  object_properties : List AProp
  events : List AEvent
  merge_suggestions : List AliasGroup
  warnings : List String
deriving DecidableEq

/-- The stable warnings dedup at the end of the aggregator. -/
def aggWarningsOut (warnings : List String) : List String :=
  firstDedup (warnings.filterMap (fun w =>
    if w = "" then none
    else if pstrip w = "" then none else some (pstrip w)))

/-- `aggregate_chunk_proposals` (proposal_aggregator.py lines 58-229). -/
def aggregate_chunk_proposals (cps : List ChunkProposal) : AggOut :=
  let st := cps.foldl aggChunkStep ⟨[], [], [], [], [], []⟩
  { classes := valuesA st.classes,
    datatype_properties := valuesA st.dprops,
    object_properties := valuesA st.oprops,
    events := valuesA st.events,
    merge_suggestions := st.merges,
    warnings := aggWarningsOut st.warnings }

/-! ## instances_to_ttl.py -/

/-- `_stable_instance_iri`; the SHA-1 hex digest of `hashlib` is the
explicit `sha1hex` parameter (an external library capability). -/
def stable_instance_iri (sha1hex : String → String)
    (ns class_name label chunk_id : String) : String :=
  ns ++ class_name ++ "/" ++
    pstake 10 (sha1hex (class_name ++ "|" ++ label ++ "|" ++ chunk_id))

/-- An instance proposal, with the fields the IRI construction reads
(`class` is a Lean keyword, modelled as `cls`). -/
structure InstanceProp where
  cls : String
  label : Option String
  id_hint : Option String
deriving DecidableEq

/-- The label computation at the call site:
`(inst.get("label") or inst.get("id_hint") or "").strip()`. -/
def instanceLabel (inst : InstanceProp) : String :=
  pstrip (orS (inst.label.getD "") (orS (inst.id_hint.getD "") ""))

/-- The instance IRI as built by `instance_proposals_to_graph` (lines
43-52): skip when the stripped class name is empty, otherwise the
stable IRI of the stripped class, the label-or-hint and the chunk id. -/
def instanceIri (sha1hex : String → String) (ns chunk_id : String)
    (inst : InstanceProp) : Option String :=
  let cls_name := pstrip inst.cls
  if cls_name = "" then none
  else some (stable_instance_iri sha1hex ns cls_name (instanceLabel inst) chunk_id)

/-! ## ontology_catalog.py

The rdflib parser is an external capability; a parsed Turtle document
is modelled as the query results `ttl_to_schema_card` and
`_guess_namespace` read from the graph: the subject list, the URIs
declared as classes / datatype properties / object properties, and the
first-literal lookups for `rdfs:comment` / `rdfs:domain` / `rdfs:range`
(`_first_literal` returns `""` when absent). -/

/-- A parsed ontology graph, by its query interface. -/
structure TtlGraph where
  subjects : List String
  classUris : List String
  dtPropUris : List String
  opPropUris : List String
  comment : String → String
  domainOf : String → String
  rangeOf : String → String

/-- The `_XSD_RANGE_MAP` table, keyed by full XSD datatype URIs. -/
def xsdRangeMap : List (String × String) :=
  [("http://www.w3.org/2001/XMLSchema#string", "string"),
   ("http://www.w3.org/2001/XMLSchema#normalizedString", "string"),
   ("http://www.w3.org/2001/XMLSchema#token", "string"),
   ("http://www.w3.org/2001/XMLSchema#language", "string"),
   ("http://www.w3.org/2001/XMLSchema#Name", "string"),
   ("http://www.w3.org/2001/XMLSchema#anyURI", "string"),
   ("http://www.w3.org/2001/XMLSchema#integer", "integer"),
   ("http://www.w3.org/2001/XMLSchema#int", "integer"),
   ("http://www.w3.org/2001/XMLSchema#long", "integer"),
   ("http://www.w3.org/2001/XMLSchema#short", "integer"),
   ("http://www.w3.org/2001/XMLSchema#byte", "integer"),
   ("http://www.w3.org/2001/XMLSchema#nonNegativeInteger", "integer"),
   ("http://www.w3.org/2001/XMLSchema#positiveInteger", "integer"),
   ("http://www.w3.org/2001/XMLSchema#nonPositiveInteger", "integer"),
   ("http://www.w3.org/2001/XMLSchema#negativeInteger", "integer"),
   ("http://www.w3.org/2001/XMLSchema#unsignedInt", "integer"),
   ("http://www.w3.org/2001/XMLSchema#unsignedLong", "integer"),
   ("http://www.w3.org/2001/XMLSchema#decimal", "number"),
   ("http://www.w3.org/2001/XMLSchema#float", "number"),
   ("http://www.w3.org/2001/XMLSchema#double", "number"),
   ("http://www.w3.org/2001/XMLSchema#boolean", "boolean"),
   ("http://www.w3.org/2001/XMLSchema#date", "date"),
   ("http://www.w3.org/2001/XMLSchema#dateTime", "datetime"),
   ("http://www.w3.org/2001/XMLSchema#dateTimeStamp", "datetime"),
   ("http://www.w3.org/2001/XMLSchema#time", "string")]

/-- `_xsd_to_card_range` on a present URI: `.get(uri, "any")`
(the `None` case is handled at the call sites, which test the raw
range string for truthiness first). -/
def xsdToCardRange (uri : String) : String :=
  match lookupA uri xsdRangeMap with
  | some r => r
  | none => "any"

/-- `_local_name`: the substring after the last `#` or `/`, the whole
string when neither occurs. -/
def localName (s : String) : String :=
  ⟨(s.data.reverse.takeWhile (fun c => ¬(c = '#' ∨ c = '/'))).reverse⟩

/-- The namespace prefix of a subject URI as counted by
`_guess_namespace`: `uri[:idx+1]` for `idx = max(rfind("#"), rfind("/"))`,
counted only when `idx > 0`. -/
def nsPrefixOf (uri : String) : Option String :=
  let suffixLen := (uri.data.reverse.takeWhile (fun c => ¬(c = '#' ∨ c = '/'))).length
  if suffixLen = uri.data.length then none
  else
    let idx := uri.data.length - suffixLen - 1
    if idx = 0 then none else some ⟨uri.data.take (idx + 1)⟩

/-- `max(counts, key=counts.get)`: the first key, in first-occurrence
order, whose count is maximal (Python's `max` keeps the first maximum). -/
def argmaxCount (l : List String) : String :=
  let keysOrdered := firstDedup l
  match keysOrdered with
  | [] => ""
  | k0 :: rest =>
    (rest.foldl (fun best k =>
      if l.count best < l.count k then k else best) k0)

/-- `_guess_namespace`. -/
def guessNamespace (g : TtlGraph) : String :=
  argmaxCount (g.subjects.filterMap nsPrefixOf)

/-- `ttl_to_schema_card` (ontology_catalog.py lines 76-163).  The dict
it returns carries no `version` key; the field is set to `""` here (the
callers never read it). -/
def ttl_to_schema_card (g : TtlGraph) (slug : String) (nsArg : Option String) :
    SchemaCard :=
  let ns := match nsArg with
    | some n => n
    | none => guessNamespace g
  let classes := (sortedSet g.classUris).filterMap (fun uri =>
    let name := localName uri
    if name = "" ∨ name.startsWith "_" then none
    else some ({ name := name, description := g.comment uri, origin := slug } : ClassEntry))
  let dt := (sortStr g.dtPropUris).map (fun uri =>
    let domain := g.domainOf uri
    let rngRaw := g.rangeOf uri
    ({ name := localName uri,
       domain := if domain = "" then "" else localName domain,
       range := if rngRaw = "" then "any" else xsdToCardRange rngRaw,
       description := g.comment uri, origin := slug } : PropEntry))
  let op := (sortStr g.opPropUris).map (fun uri =>
    let domain := g.domainOf uri
    let rng := g.rangeOf uri
    ({ name := localName uri,
       domain := if domain = "" then "" else localName domain,
       range := if rng = "" then "" else localName rng,
       description := g.comment uri, origin := slug } : PropEntry))
  { version := "", ns := orS ns "", classes := classes,
    datatype_properties := dt, object_properties := op,
    events := [], aliases := [], warnings := [] }

/-- A catalog manifest entry. -/
structure CatEntry where
  slug : String
  label : String
  ns : String
  description : String
  path : String
  tags : List String
deriving DecidableEq

/-- The durable catalog state: the files of the catalog directory
(name to content) and the manifest. -/
structure CatalogState where
  files : List (String × String)
  manifest : List CatEntry
deriving DecidableEq

/-- `register_ontology` (ontology_catalog.py lines 201-247).  `parse`
is the external Turtle parser (file content to graph); the TTL content
has already been read from `ttl_path`. -/
def register_ontology (parse : String → TtlGraph) (st : CatalogState)
    (slug content label description : String) (nsArg : Option String)
    (tags : List String) : CatalogState × CatEntry :=
  let files := assignA (slug ++ ".ttl") content st.files
  let ns := match nsArg with
    | some n => n
    | none => (ttl_to_schema_card (parse content) slug none).ns
  let entry : CatEntry :=
    { slug := slug, label := orS label slug, ns := ns,
      description := description, path := slug ++ ".ttl", tags := tags }
  let manifest := sortOn (fun e : CatEntry => e.slug)
    ((st.manifest.filter (fun e => e.slug ≠ slug)) ++ [entry])
  (⟨files, manifest⟩, entry)

/-- First-seen-wins insertion: `if k not in seen: seen[k] = c`. -/
def firstSeenStep {kappa alpha : Type} [DecidableEq kappa] (key : alpha → kappa)
    (m : List (kappa × alpha)) (c : alpha) : List (kappa × alpha) :=
  if (lookupA (key c) m).isSome then m else m ++ [(key c, c)]

/-- The compose dedup key of a class: `c["name"].lower()`. -/
def composeClsKey (c : ClassEntry) : String := plower c.name

/-- The compose dedup key of a property:
`(p["domain"].lower(), p["name"].lower(), p["range"].lower())`. -/
def composePropKey (p : PropEntry) : String × String × String :=
  (plower p.domain, plower p.name, plower p.range)

/-- The running state of `compose_baselines`. -/
structure ComposeSt where
  merged : SchemaCard
  seenC : List (String × ClassEntry)
  seenD : List ((String × String × String) × PropEntry)
  seenO : List ((String × String × String) × PropEntry)

/-- `slug_to_entry.get(slug)`: the dict comprehension keeps the last
entry with a given slug. -/
def slugLookup (st : CatalogState) (slug : String) : Option CatEntry :=
  (st.manifest.filter (fun e => e.slug = slug)).getLast?

/-- One iteration of the `for slug in slugs` loop of
`compose_baselines` (ontology_catalog.py lines 273-295).  The per-slug
graph is `parse` applied to the stored file content. -/
def composeStep (parse : String → TtlGraph) (st : CatalogState)
    (acc : ComposeSt) (slug : String) : ComposeSt :=
  match slugLookup st slug with
  | none =>
    { acc with merged :=
        { acc.merged with warnings := acc.merged.warnings ++
            ["Baseline '" ++ slug ++ "' not found in catalog."] } }
  | some entry =>
    let content := (lookupA entry.path st.files).getD ""
    let card := ttl_to_schema_card (parse content) slug (some entry.ns)
    { acc with
      seenC := card.classes.foldl (firstSeenStep composeClsKey) acc.seenC,
      seenD := card.datatype_properties.foldl (firstSeenStep composePropKey)
        acc.seenD,
      seenO := card.object_properties.foldl (firstSeenStep composePropKey)
        acc.seenO }

/-- The initial merged card of `compose_baselines`:
`_ensure_schema_card_defaults({})` with the optional target-namespace
override (skipped when falsy). -/
def composeInit (now : String) (target_namespace : Option String) : SchemaCard :=
  { emptyCard now with ns :=
      match target_namespace with
      | some t => if t = "" then defaultNamespace else t
      | none => defaultNamespace }

/-- `compose_baselines` (ontology_catalog.py lines 250-312). -/
def compose_baselines (parse : String → TtlGraph) (st : CatalogState)
    (now : String) (slugs : List String) (target_namespace : Option String) :
    SchemaCard :=
  let fin := slugs.foldl (composeStep parse st)
    ⟨composeInit now target_namespace, [], [], []⟩
  { fin.merged with
    classes := sortOn (fun x : ClassEntry => plower x.name) (valuesA fin.seenC),
    datatype_properties := sortOn propSortKey (valuesA fin.seenD),
    object_properties := sortOn propSortKey (valuesA fin.seenO) }

/-! ## app.py -/

/-- The request body of `POST /ontologies`. -/
structure AddBody where
  slug : String
  ttl_content : String
  label : String
  description : String
  tags : List String
deriving DecidableEq

/-- `add_ontology` of app.py (lines 213-252): validate, then write the
content to a temp file and register it.  The catalog state is threaded
explicitly; the error branch returns it untouched, as the source raises
before any write. -/
def add_ontology (parse : String → TtlGraph) (body : AddBody)
    (st : CatalogState) : CatalogState × Except String CatEntry :=
  let slug := pstrip body.slug
  let ttl_content := pstrip body.ttl_content
  if slug = "" ∨ ttl_content = "" then
    (st, Except.error "slug and ttl_content are required.")
  else
    let (st', entry) := register_ontology parse st slug ttl_content
      body.label body.description none body.tags
    (st', Except.ok entry)

/-! ## String helper lemmas -/

theorem dropWhile_head_false {p : Char → Bool} {l : List Char} {a : Char}
    {t : List Char} (h : l.dropWhile p = a :: t) : p a = false := by
  have hh := List.head?_dropWhile_not p l
  rw [h] at hh
  simpa using hh

theorem stripChars_prefix_dropWhile (l : List Char) :
    stripChars l <+: l.dropWhile isWs := by
  have h : ((l.dropWhile isWs).reverse.dropWhile isWs).reverse <+:
      ((l.dropWhile isWs).reverse).reverse :=
    List.reverse_prefix.2 (List.dropWhile_suffix isWs)
  rw [List.reverse_reverse] at h
  exact h

theorem stripChars_head_false {l : List Char} {a : Char} {t : List Char}
    (h : stripChars l = a :: t) : isWs a = false := by
  obtain ⟨r, hr⟩ := stripChars_prefix_dropWhile l
  rw [h] at hr
  exact dropWhile_head_false hr.symm

theorem stripChars_idem (l : List Char) :
    stripChars (stripChars l) = stripChars l := by
  have h1 : (stripChars l).dropWhile isWs = stripChars l := by
    cases hs : stripChars l with
    | nil => simp
    | cons a t =>
      rw [List.dropWhile_cons, stripChars_head_false hs]
      simp
  have h2 : (stripChars l).reverse = ((l.dropWhile isWs).reverse).dropWhile isWs := by
    unfold stripChars
    rw [List.reverse_reverse]
  show (((stripChars l).dropWhile isWs).reverse.dropWhile isWs).reverse = stripChars l
  rw [h1, h2, List.dropWhile_idempotent, ← h2, List.reverse_reverse]

theorem pstrip_idem (s : String) : pstrip (pstrip s) = pstrip s := by
  show String.mk (stripChars (stripChars s.data)) = String.mk (stripChars s.data)
  rw [stripChars_idem]

theorem pstrip_length (s : String) : (pstrip s).length = (stripChars s.data).length := rfl

/-- `lowerChar` never turns a character into or out of whitespace. -/
theorem isWs_lowerChar (c : Char) : isWs (lowerChar c) = isWs c := by
  unfold lowerChar
  split <;> rfl

theorem stripChars_map_lowerChar (l : List Char) :
    stripChars (l.map lowerChar) = (stripChars l).map lowerChar := by
  have hp : (isWs ∘ lowerChar) = isWs := by
    funext c
    exact isWs_lowerChar c
  have h1 : ∀ m : List Char,
      (m.map lowerChar).dropWhile isWs = (m.dropWhile isWs).map lowerChar := by
    intro m
    rw [List.dropWhile_map, hp]
  have h2 : ∀ m : List Char,
      (m.map lowerChar).reverse = m.reverse.map lowerChar := by
    intro m
    rw [List.map_reverse]
  unfold stripChars
  rw [h1, h2, h1, h2]

/-- Stripping and ASCII-lowering commute, so the merger's
`strip().lower()` keys and the `lower()` sort keys agree on names that
differ only in case. -/
theorem pstrip_plower (s : String) : pstrip (plower s) = plower (pstrip s) := by
  show String.mk (stripChars (s.data.map lowerChar)) =
    String.mk ((stripChars s.data).map lowerChar)
  rw [stripChars_map_lowerChar]

theorem string_ne_empty_iff (s : String) : s ≠ "" ↔ s.data ≠ [] := by
  constructor
  · intro h hd
    exact h (String.ext hd)
  · intro h hd
    rw [hd] at h
    exact h rfl

theorem string_ne_empty_of_length {s : String} (h : 0 < s.length) : s ≠ "" := by
  rw [string_ne_empty_iff]
  intro hd
  rw [show s.length = s.data.length from rfl, hd] at h
  simp at h

/-! ## firstDedup lemmas -/

theorem mem_firstDedupAux {x : String} :
    ∀ (l seen : List String), x ∈ firstDedupAux seen l ↔ x ∈ l ∧ x ∉ seen := by
  intro l
  induction l with
  | nil => intro seen; simp [firstDedupAux]
  | cons a t ih =>
    intro seen
    unfold firstDedupAux
    by_cases ha : a ∈ seen
    · rw [if_pos ha, ih]
      constructor
      · rintro ⟨hx, hs⟩
        exact ⟨List.mem_cons_of_mem a hx, hs⟩
      · rintro ⟨hx, hs⟩
        rcases List.mem_cons.1 hx with h | h
        · exact absurd (h ▸ ha) hs
        · exact ⟨h, hs⟩
    · rw [if_neg ha]
      rw [List.mem_cons, ih]
      constructor
      · rintro (h | ⟨hx, hs⟩)
        · exact ⟨h ▸ List.mem_cons_self a t, h ▸ ha⟩
        · exact ⟨List.mem_cons_of_mem a hx, fun hh => hs (List.mem_cons_of_mem a hh)⟩
      · rintro ⟨hx, hs⟩
        rcases List.mem_cons.1 hx with h | h
        · exact Or.inl h
        · by_cases hxa : x = a
          · exact Or.inl hxa
          · exact Or.inr ⟨h, fun hh => by
              rcases List.mem_cons.1 hh with h' | h'
              · exact hxa h'
              · exact hs h'⟩

theorem mem_firstDedup {x : String} {l : List String} :
    x ∈ firstDedup l ↔ x ∈ l := by
  rw [firstDedup, mem_firstDedupAux]
  simp

/-! ## Sorting lemmas -/

theorem sortOn_perm {α κ : Type} [PyOrd κ] (key : α → κ) (l : List α) :
    List.Perm (sortOn key l) l :=
  List.perm_insertionSort _ l

theorem mem_sortOn {α κ : Type} [PyOrd κ] {key : α → κ} {l : List α} {x : α} :
    x ∈ sortOn key l ↔ x ∈ l :=
  (sortOn_perm key l).mem_iff

theorem sortOn_sorted {α κ : Type} [PyOrd κ] (key : α → κ) (l : List α) :
    (sortOn key l).Sorted (keyLe key) :=
  List.sorted_insertionSort _ l

theorem sortOn_of_sorted {α κ : Type} [PyOrd κ] {key : α → κ} {l : List α}
    (h : l.Sorted (keyLe key)) : sortOn key l = l :=
  h.insertionSort_eq

theorem sortOn_idem {α κ : Type} [PyOrd κ] (key : α → κ) (l : List α) :
    sortOn key (sortOn key l) = sortOn key l :=
  sortOn_of_sorted (sortOn_sorted key l)

instance : IsAntisymm String (keyLe (id : String → String)) :=
  ⟨fun a b h h' => PyOrd.antisymm a b h h'⟩

theorem mem_sortedSet {l : List String} {x : String} :
    x ∈ sortedSet l ↔ x ∈ l := by
  rw [sortedSet, sortStr, mem_sortOn]
  exact List.mem_dedup

theorem sortedSet_nodup (l : List String) : (sortedSet l).Nodup :=
  (sortOn_perm id l.dedup).nodup_iff.2 l.nodup_dedup

theorem sortedSet_sorted (l : List String) :
    (sortedSet l).Sorted (keyLe (id : String → String)) :=
  sortOn_sorted id l.dedup

theorem sortedSet_eq_of_mem_iff {l₁ : List String} (l₂ : List String)
    (h : ∀ x, x ∈ l₁ ↔ x ∈ l₂) : sortedSet l₁ = sortedSet l₂ := by
  have hp : List.Perm l₁.dedup l₂.dedup := by
    rw [List.perm_ext_iff_of_nodup l₁.nodup_dedup l₂.nodup_dedup]
    intro a
    rw [List.mem_dedup, List.mem_dedup]
    exact h a
  exact List.eq_of_perm_of_sorted
    (((sortOn_perm id l₁.dedup).trans hp).trans (sortOn_perm id l₂.dedup).symm)
    (sortedSet_sorted l₁) (sortedSet_sorted l₂)

theorem sortedSet_eq_self {l : List String}
    (hs : l.Sorted (keyLe (id : String → String))) (hn : l.Nodup) :
    sortedSet l = l := by
  rw [sortedSet, List.dedup_eq_self.2 hn]
  exact sortOn_of_sorted hs

theorem mem_sortedUnion {xs ys : List String} {a : String} :
    a ∈ sortedUnion xs ys ↔ a ∈ xs ∨ a ∈ ys := by
  rw [sortedUnion, mem_sortedSet, List.mem_append]

theorem sortedUnion_sorted (xs ys : List String) :
    (sortedUnion xs ys).Sorted (keyLe (id : String → String)) :=
  sortedSet_sorted _

theorem sortedUnion_nodup (xs ys : List String) : (sortedUnion xs ys).Nodup :=
  sortedSet_nodup _

theorem sortedUnion_eq_left {z ys : List String}
    (hs : z.Sorted (keyLe (id : String → String))) (hn : z.Nodup)
    (hsub : ∀ y ∈ ys, y ∈ z) : sortedUnion z ys = z := by
  rw [sortedUnion, sortedSet_eq_of_mem_iff z, sortedSet_eq_self hs hn]
  intro x
  rw [List.mem_append]
  constructor
  · rintro (h | h)
    · exact h
    · exact hsub x h
  · exact Or.inl

theorem sortedUnion_absorb (a b : List String) :
    sortedUnion (sortedUnion a b) b = sortedUnion a b :=
  sortedUnion_eq_left (sortedUnion_sorted a b) (sortedUnion_nodup a b)
    (fun y hy => mem_sortedUnion.2 (Or.inr hy))

/-! ## Association-list lemmas -/

theorem lookupA_eq_none_iff {κ ν : Type} [DecidableEq κ] {k : κ}
    {m : List (κ × ν)} : lookupA k m = none ↔ k ∉ m.map Prod.fst := by
  induction m with
  | nil => simp [lookupA]
  | cons kv t ih =>
    obtain ⟨k', v⟩ := kv
    rw [List.map_cons, List.mem_cons]
    by_cases h : k' = k
    · rw [lookupA, if_pos h]
      simp [h]
    · rw [lookupA, if_neg h, ih]
      constructor
      · intro hk hor
        rcases hor with h1 | h1
        · exact h h1.symm
        · exact hk h1
      · intro hk h1
        exact hk (Or.inr h1)

theorem mem_of_lookupA_eq_some {κ ν : Type} [DecidableEq κ] {k : κ} {v : ν}
    {m : List (κ × ν)} (h : lookupA k m = some v) : (k, v) ∈ m := by
  induction m with
  | nil => simp [lookupA] at h
  | cons kv t ih =>
    obtain ⟨k', v'⟩ := kv
    by_cases hk : k' = k
    · rw [lookupA, if_pos hk] at h
      subst hk
      obtain rfl : v' = v := by injection h
      exact List.mem_cons_self _ _
    · rw [lookupA, if_neg hk] at h
      exact List.mem_cons_of_mem _ (ih h)

theorem lookupA_eq_some_of_mem {κ ν : Type} [DecidableEq κ] {k : κ} {v : ν}
    {m : List (κ × ν)} (hnd : (m.map Prod.fst).Nodup) (h : (k, v) ∈ m) :
    lookupA k m = some v := by
  induction m with
  | nil => simp at h
  | cons kv t ih =>
    obtain ⟨k', v'⟩ := kv
    rw [List.map_cons, List.nodup_cons] at hnd
    rcases List.mem_cons.1 h with h' | h'
    · obtain ⟨rfl, rfl⟩ := Prod.mk.inj h'.symm
      rw [lookupA, if_pos rfl]
    · by_cases hk : k' = k
      · exfalso
        apply hnd.1
        rw [hk]
        simpa using List.mem_map_of_mem Prod.fst h'
      · rw [lookupA, if_neg hk]
        exact ih hnd.2 h'

theorem lookupA_append_left {κ ν : Type} [DecidableEq κ] {k : κ} {v : ν}
    {m t : List (κ × ν)} (h : lookupA k m = some v) :
    lookupA k (m ++ t) = some v := by
  induction m with
  | nil => simp [lookupA] at h
  | cons kv r ih =>
    obtain ⟨k', v'⟩ := kv
    by_cases hk : k' = k
    · rw [lookupA, if_pos hk] at h
      rw [List.cons_append, lookupA, if_pos hk]
      exact h
    · rw [lookupA, if_neg hk] at h
      rw [List.cons_append, lookupA, if_neg hk]
      exact ih h

theorem lookupA_append_none {κ ν : Type} [DecidableEq κ] {k : κ}
    {m t : List (κ × ν)} (h : lookupA k m = none) :
    lookupA k (m ++ t) = lookupA k t := by
  induction m with
  | nil => simp
  | cons kv r ih =>
    obtain ⟨k', v'⟩ := kv
    by_cases hk : k' = k
    · rw [lookupA, if_pos hk] at h
      exact absurd h (by simp)
    · rw [lookupA, if_neg hk] at h
      rw [List.cons_append, lookupA, if_neg hk]
      exact ih h

theorem lookupA_singleton_self {κ ν : Type} [DecidableEq κ] (k : κ) (v : ν) :
    lookupA k [(k, v)] = some v := by
  rw [lookupA, if_pos rfl]

theorem updateA_keys {κ ν : Type} [DecidableEq κ] (k : κ) (f : ν → ν)
    (m : List (κ × ν)) : (updateA k f m).map Prod.fst = m.map Prod.fst := by
  induction m with
  | nil => rfl
  | cons kv t ih =>
    obtain ⟨k', v⟩ := kv
    by_cases hk : k' = k
    · rw [updateA, if_pos hk]
      simp
    · rw [updateA, if_neg hk]
      simpa using ih

theorem lookupA_updateA_self {κ ν : Type} [DecidableEq κ] (k : κ) (f : ν → ν)
    (m : List (κ × ν)) : lookupA k (updateA k f m) = (lookupA k m).map f := by
  induction m with
  | nil => rfl
  | cons kv t ih =>
    obtain ⟨k', v⟩ := kv
    by_cases hk : k' = k
    · rw [updateA, if_pos hk, lookupA, if_pos hk, lookupA, if_pos hk]
      rfl
    · rw [updateA, if_neg hk, lookupA, if_neg hk, lookupA, if_neg hk]
      exact ih

theorem lookupA_updateA_ne {κ ν : Type} [DecidableEq κ] {k k' : κ} (f : ν → ν)
    (m : List (κ × ν)) (h : k' ≠ k) :
    lookupA k' (updateA k f m) = lookupA k' m := by
  induction m with
  | nil => rfl
  | cons kv t ih =>
    obtain ⟨k'', v⟩ := kv
    by_cases hk : k'' = k
    · rw [updateA, if_pos hk, lookupA, lookupA]
      have : ¬(k'' = k') := fun hh => h (hh ▸ hk)
      rw [if_neg this, if_neg this]
    · rw [updateA, if_neg hk, lookupA, lookupA]
      by_cases h2 : k'' = k'
      · rw [if_pos h2, if_pos h2]
      · rw [if_neg h2, if_neg h2]
        exact ih

theorem updateA_eq_self {κ ν : Type} [DecidableEq κ] {k : κ} {f : ν → ν}
    {m : List (κ × ν)} (h : ∀ v, lookupA k m = some v → f v = v) :
    updateA k f m = m := by
  induction m with
  | nil => rfl
  | cons kv t ih =>
    obtain ⟨k', v⟩ := kv
    by_cases hk : k' = k
    · rw [updateA, if_pos hk]
      have := h v (by rw [lookupA, if_pos hk])
      rw [this]
    · rw [updateA, if_neg hk]
      rw [ih]
      intro v' hv'
      apply h
      rw [lookupA, if_neg hk]
      exact hv'

theorem mem_updateA {κ ν : Type} [DecidableEq κ] {k : κ} {f : ν → ν}
    {m : List (κ × ν)} {kv : κ × ν} (h : kv ∈ updateA k f m) :
    kv ∈ m ∨ ∃ v, (k, v) ∈ m ∧ kv = (k, f v) := by
  induction m with
  | nil => simp [updateA] at h
  | cons kv' t ih =>
    obtain ⟨k', v'⟩ := kv'
    by_cases hk : k' = k
    · rw [updateA, if_pos hk] at h
      rcases List.mem_cons.1 h with h' | h'
      · subst hk
        exact Or.inr ⟨v', List.mem_cons_self _ _, h'⟩
      · exact Or.inl (List.mem_cons_of_mem _ h')
    · rw [updateA, if_neg hk] at h
      rcases List.mem_cons.1 h with h' | h'
      · exact Or.inl (h' ▸ List.mem_cons_self _ _)
      · rcases ih h' with h'' | ⟨v, hv, he⟩
        · exact Or.inl (List.mem_cons_of_mem _ h'')
        · exact Or.inr ⟨v, List.mem_cons_of_mem _ hv, he⟩

theorem lookupA_perm {κ ν : Type} [DecidableEq κ] {m₁ m₂ : List (κ × ν)}
    (hp : List.Perm m₁ m₂) (hnd : (m₁.map Prod.fst).Nodup) (k : κ) :
    lookupA k m₁ = lookupA k m₂ := by
  have hnd₂ : (m₂.map Prod.fst).Nodup := ((hp.map Prod.fst).nodup_iff).1 hnd
  cases h : lookupA k m₁ with
  | none =>
    rw [lookupA_eq_none_iff] at h
    have : k ∉ m₂.map Prod.fst := fun hh => h ((hp.map Prod.fst).mem_iff.2 hh)
    rw [eq_comm, lookupA_eq_none_iff]
    exact this
  | some v =>
    have := mem_of_lookupA_eq_some h
    rw [eq_comm]
    exact lookupA_eq_some_of_mem hnd₂ (hp.mem_iff.1 this)

/-! ## Generic dict-merge machinery

The previous-card phases of `schema_card_from_proposal` and its
proposal phases (and the loops of `aggregate_chunk_proposals`) each
follow one of two shapes: skip invalid entries and dict-assign under a
computed key, or skip invalid entries and insert-or-update under a
computed key.  The lemmas about those shapes are proved once here and
instantiated per section. -/

section Generic

variable {κ α β : Type} [DecidableEq κ]

/-- Previous-card phase shape: unconditional dict assignment of the
normalized entry under its key. -/
def gPrevStep (validC : α → Bool) (kc : α → κ) (fc : α → α)
    (m : List (κ × α)) (c : α) : List (κ × α) :=
  if validC c then assignA (kc c) (fc c) m else m

/-- Proposal phase shape: insert the fresh entry when the key is new,
update the existing entry otherwise. -/
def gStep (validP : β → Bool) (kp : β → κ) (fp : β → α) (up : β → α → α)
    (m : List (κ × α)) (p : β) : List (κ × α) :=
  if validP p then
    match lookupA (kp p) m with
    | none => m ++ [(kp p, fp p)]
    | some _ => updateA (kp p) (up p) m
  else m

variable {validC : α → Bool} {kc : α → κ} {fc : α → α}
variable {validP : β → Bool} {kp : β → κ} {fp : β → α} {up : β → α → α}

theorem assignA_keys_nodup {k : κ} {v : α} {m : List (κ × α)}
    (h : (m.map Prod.fst).Nodup) : ((assignA k v m).map Prod.fst).Nodup := by
  unfold assignA
  split
  · rw [updateA_keys]
    exact h
  · rename_i hns
    rw [List.map_append]
    rw [List.nodup_append]
    refine ⟨h, List.nodup_singleton _, ?_⟩
    intro x hx hx'
    simp only [List.map_cons, List.map_nil, List.mem_singleton] at hx'
    subst hx'
    rw [Option.not_isSome_iff_eq_none] at hns
    exact (lookupA_eq_none_iff.1 hns) hx

theorem gPrevStep_fold_keys_nodup {l : List α} {m : List (κ × α)}
    (h : (m.map Prod.fst).Nodup) :
    ((l.foldl (gPrevStep validC kc fc) m).map Prod.fst).Nodup := by
  induction l generalizing m with
  | nil => exact h
  | cons c t ih =>
    apply ih
    unfold gPrevStep
    split
    · exact assignA_keys_nodup h
    · exact h

theorem gStep_fold_keys_nodup {l : List β} {m : List (κ × α)}
    (h : (m.map Prod.fst).Nodup) :
    ((l.foldl (gStep validP kp fp up) m).map Prod.fst).Nodup := by
  induction l generalizing m with
  | nil => exact h
  | cons p t ih =>
    apply ih
    unfold gStep
    split
    · cases hl : lookupA (kp p) m with
      | none =>
        rw [List.map_append, List.nodup_append]
        refine ⟨h, List.nodup_singleton _, ?_⟩
        intro x hx hx'
        simp only [List.map_cons, List.map_nil, List.mem_singleton] at hx'
        subst hx'
        exact (lookupA_eq_none_iff.1 hl) hx
      | some v =>
        rw [updateA_keys]
        exact h
    · exact h

theorem gPrevStep_fold_pair_inv (Q : κ × α → Prop) {l : List α}
    {m : List (κ × α)}
    (hfc : ∀ c ∈ l, validC c = true → Q (kc c, fc c))
    (hm : ∀ kv ∈ m, Q kv) :
    ∀ kv ∈ l.foldl (gPrevStep validC kc fc) m, Q kv := by
  induction l generalizing m with
  | nil => exact hm
  | cons c t ih =>
    apply ih (fun c' hc' => hfc c' (List.mem_cons_of_mem _ hc'))
    intro kv hkv
    unfold gPrevStep at hkv
    split at hkv
    · unfold assignA at hkv
      split at hkv
      · rcases mem_updateA hkv with h' | ⟨v, _, he⟩
        · exact hm kv h'
        · rw [he]
          exact hfc c (List.mem_cons_self _ _) (by assumption)
      · rcases List.mem_append.1 hkv with h' | h'
        · exact hm kv h'
        · rw [List.mem_singleton.1 h']
          exact hfc c (List.mem_cons_self _ _) (by assumption)
    · exact hm kv hkv

theorem gStep_fold_pair_inv (Q : κ × α → Prop) {l : List β} {m : List (κ × α)}
    (hfp : ∀ p ∈ l, validP p = true → Q (kp p, fp p))
    (hup : ∀ p ∈ l, ∀ k v, Q (k, v) → Q (k, up p v))
    (hm : ∀ kv ∈ m, Q kv) :
    ∀ kv ∈ l.foldl (gStep validP kp fp up) m, Q kv := by
  induction l generalizing m with
  | nil => exact hm
  | cons p t ih =>
    apply ih (fun p' hp' => hfp p' (List.mem_cons_of_mem _ hp'))
      (fun p' hp' => hup p' (List.mem_cons_of_mem _ hp'))
    intro kv hkv
    unfold gStep at hkv
    split at hkv
    · rename_i hv
      cases hl : lookupA (kp p) m with
      | none =>
        rw [hl] at hkv
        rcases List.mem_append.1 hkv with h' | h'
        · exact hm kv h'
        · rw [List.mem_singleton.1 h']
          exact hfp p (List.mem_cons_self _ _) hv
      | some w =>
        rw [hl] at hkv
        rcases mem_updateA hkv with h' | ⟨v, hvm, he⟩
        · exact hm kv h'
        · rw [he]
          exact hup p (List.mem_cons_self _ _) _ v (hm _ hvm)
    · exact hm kv hkv

theorem gStep_fold_mem_keys {l : List β} {m : List (κ × α)} {k : κ} :
    k ∈ (l.foldl (gStep validP kp fp up) m).map Prod.fst ↔
      k ∈ m.map Prod.fst ∨ ∃ p ∈ l, validP p = true ∧ kp p = k := by
  induction l generalizing m with
  | nil => simp
  | cons p t ih =>
    rw [List.foldl_cons, ih]
    have hstep : k ∈ (gStep validP kp fp up m p).map Prod.fst ↔
        k ∈ m.map Prod.fst ∨ (validP p = true ∧ kp p = k) := by
      unfold gStep
      split
      · rename_i hv
        cases hl : lookupA (kp p) m with
        | none =>
          rw [List.map_append]
          simp only [List.mem_append, List.map_cons, List.map_nil,
            List.mem_singleton]
          constructor
          · rintro (h | h)
            · exact Or.inl h
            · exact Or.inr ⟨hv, h.symm⟩
          · rintro (h | ⟨_, h⟩)
            · exact Or.inl h
            · exact Or.inr h.symm
        | some w =>
          rw [updateA_keys]
          constructor
          · exact Or.inl
          · rintro (h | ⟨_, h⟩)
            · exact h
            · subst h
              have : lookupA (kp p) m ≠ none := by
                rw [hl]
                exact Option.some_ne_none w
              by_contra hk
              exact this (lookupA_eq_none_iff.2 hk)
      · rename_i hv
        constructor
        · exact Or.inl
        · rintro (h | ⟨h1, _⟩)
          · exact h
          · exact absurd h1 hv
    rw [hstep]
    constructor
    · rintro ((h | h) | ⟨q, hq, hh⟩)
      · exact Or.inl h
      · exact Or.inr ⟨p, List.mem_cons_self _ _, h⟩
      · exact Or.inr ⟨q, List.mem_cons_of_mem _ hq, hh⟩
    · rintro (h | ⟨q, hq, hh⟩)
      · exact Or.inl (Or.inl h)
      · rcases List.mem_cons.1 hq with h' | h'
        · exact Or.inl (Or.inr (h' ▸ hh))
        · exact Or.inr ⟨q, h', hh⟩

theorem gStep_fold_eq_self {l : List β} {m : List (κ × α)}
    (h : ∀ p ∈ l, validP p = true →
      ∃ v, lookupA (kp p) m = some v ∧ up p v = v) :
    l.foldl (gStep validP kp fp up) m = m := by
  induction l with
  | nil => rfl
  | cons p t ih =>
    have hstep : gStep validP kp fp up m p = m := by
      unfold gStep
      split
      · rename_i hv
        obtain ⟨v, hl, hv'⟩ := h p (List.mem_cons_self _ _) hv
        rw [hl]
        apply updateA_eq_self
        intro w hw
        rw [hl] at hw
        obtain rfl : v = w := by injection hw
        exact hv'
      · rfl
    rw [List.foldl_cons, hstep]
    exact ih (fun p' hp' => h p' (List.mem_cons_of_mem _ hp'))

theorem gPrevStep_fold_clean {l : List α} {m : List (κ × α)}
    (hvalid : ∀ c ∈ l, validC c = true)
    (hnd : (l.map kc).Nodup)
    (hdisj : ∀ c ∈ l, kc c ∉ m.map Prod.fst) :
    l.foldl (gPrevStep validC kc fc) m = m ++ l.map (fun c => (kc c, fc c)) := by
  induction l generalizing m with
  | nil => simp
  | cons c t ih =>
    rw [List.foldl_cons]
    have hstep : gPrevStep validC kc fc m c = m ++ [(kc c, fc c)] := by
      unfold gPrevStep
      rw [if_pos (hvalid c (List.mem_cons_self _ _))]
      unfold assignA
      have : lookupA (kc c) m = none :=
        lookupA_eq_none_iff.2 (hdisj c (List.mem_cons_self _ _))
      rw [this]
      simp
    rw [hstep]
    rw [List.map_cons, List.nodup_cons] at hnd
    rw [ih (fun c' hc' => hvalid c' (List.mem_cons_of_mem _ hc')) hnd.2]
    · simp
    · intro c' hc'
      rw [List.map_append]
      intro hmem
      rcases List.mem_append.1 hmem with h' | h'
      · exact hdisj c' (List.mem_cons_of_mem _ hc') h'
      · simp only [List.map_cons, List.map_nil, List.mem_singleton] at h'
        exact hnd.1 (h' ▸ List.mem_map_of_mem kc hc')

theorem gPrevStep_fold_mem_keys {l : List α} {m : List (κ × α)} {k : κ} :
    k ∈ (l.foldl (gPrevStep validC kc fc) m).map Prod.fst ↔
      k ∈ m.map Prod.fst ∨ ∃ c ∈ l, validC c = true ∧ kc c = k := by
  induction l generalizing m with
  | nil => simp
  | cons c t ih =>
    rw [List.foldl_cons, ih]
    have hstep : k ∈ (gPrevStep validC kc fc m c).map Prod.fst ↔
        k ∈ m.map Prod.fst ∨ (validC c = true ∧ kc c = k) := by
      unfold gPrevStep
      split
      · rename_i hv
        unfold assignA
        split
        · rename_i hs
          rw [updateA_keys]
          constructor
          · exact Or.inl
          · rintro (h | ⟨_, h⟩)
            · exact h
            · subst h
              rw [Option.isSome_iff_exists] at hs
              obtain ⟨v, hv'⟩ := hs
              by_contra hk
              rw [lookupA_eq_none_iff.2 hk] at hv'
              exact Option.noConfusion hv'
        · rw [List.map_append]
          simp only [List.mem_append, List.map_cons, List.map_nil,
            List.mem_singleton]
          constructor
          · rintro (h | h)
            · exact Or.inl h
            · exact Or.inr ⟨hv, h.symm⟩
          · rintro (h | ⟨_, h⟩)
            · exact Or.inl h
            · exact Or.inr h.symm
      · rename_i hv
        constructor
        · exact Or.inl
        · rintro (h | ⟨h1, _⟩)
          · exact h
          · exact absurd h1 hv
    rw [hstep]
    constructor
    · rintro ((h | h) | ⟨q, hq, hh⟩)
      · exact Or.inl h
      · exact Or.inr ⟨c, List.mem_cons_self _ _, h⟩
      · exact Or.inr ⟨q, List.mem_cons_of_mem _ hq, hh⟩
    · rintro (h | ⟨q, hq, hh⟩)
      · exact Or.inl (Or.inl h)
      · rcases List.mem_cons.1 hq with h' | h'
        · exact Or.inl (Or.inr (h' ▸ hh))
        · exact Or.inr ⟨q, h', hh⟩

theorem gStep_fold_lookupA_of_ne {l : List β} {m : List (κ × α)} {k : κ}
    (h : ∀ p ∈ l, validP p = true → kp p ≠ k) :
    lookupA k (l.foldl (gStep validP kp fp up) m) = lookupA k m := by
  induction l generalizing m with
  | nil => rfl
  | cons p t ih =>
    rw [List.foldl_cons,
      ih (fun p' hp' => h p' (List.mem_cons_of_mem _ hp'))]
    unfold gStep
    split
    · rename_i hv
      have hne := h p (List.mem_cons_self _ _) hv
      cases hl : lookupA (kp p) m with
      | none =>
        cases hk : lookupA k m with
        | none =>
          rw [lookupA_append_none hk, lookupA, if_neg hne]
          rfl
        | some w => exact lookupA_append_left hk
      | some w => exact lookupA_updateA_ne _ _ (fun hh => hne hh.symm)
    · rfl

theorem gStep_fold_lookupA_single {k : κ} {p0 : β} :
    ∀ (l : List β) (m : List (κ × α)),
    lookupA k m = none →
    l.filter (fun p => validP p && decide (kp p = k)) = [p0] →
    lookupA k (l.foldl (gStep validP kp fp up) m) = some (fp p0) := by
  intro l
  induction l with
  | nil => intro m _ hf; simp at hf
  | cons p t ih =>
    intro m hnone hf
    rw [List.filter_cons] at hf
    by_cases hpk : validP p = true ∧ kp p = k
    · rw [if_pos (by simp [hpk.1, hpk.2])] at hf
      obtain ⟨rfl, hft⟩ : p = p0 ∧
          t.filter (fun q => validP q && decide (kp q = k)) = [] := by
        constructor
        · exact (List.cons.inj hf).1
        · exact (List.cons.inj hf).2
      rw [List.foldl_cons]
      have hstep : gStep validP kp fp up m p = m ++ [(kp p, fp p)] := by
        unfold gStep
        rw [if_pos hpk.1, hpk.2, hnone]
      rw [hstep]
      have hlook : lookupA k (m ++ [(kp p, fp p)]) = some (fp p) := by
        rw [lookupA_append_none hnone, hpk.2]
        exact lookupA_singleton_self k (fp p)
      rw [gStep_fold_lookupA_of_ne, hlook]
      intro q hq hv hqk
      have : q ∈ t.filter (fun q => validP q && decide (kp q = k)) :=
        List.mem_filter.2 ⟨hq, by simp [hv, hqk]⟩
      rw [hft] at this
      simp at this
    · rw [if_neg (by
        intro hh
        rw [Bool.and_eq_true] at hh
        exact hpk ⟨hh.1, of_decide_eq_true hh.2⟩)] at hf
      rw [List.foldl_cons]
      apply ih _ _ hf
      unfold gStep
      split
      · rename_i hv
        have hne : kp p ≠ k := fun hh => hpk ⟨hv, hh⟩
        cases hl : lookupA (kp p) m with
        | none =>
          rw [lookupA_append_none hnone, lookupA, if_neg hne]
          rfl
        | some w =>
          rw [lookupA_updateA_ne _ _ (fun hh => hne hh.symm)]
          exact hnone
      · exact hnone

theorem map_eq_self_of {γ : Type} {f : γ → γ} {l : List γ}
    (h : ∀ x ∈ l, f x = x) : l.map f = l := by
  induction l with
  | nil => rfl
  | cons a t ih =>
    rw [List.map_cons, h a (List.mem_cons_self _ _),
      ih (fun x hx => h x (List.mem_cons_of_mem _ hx))]

theorem map_congr_mem {γ δ : Type} {f g : γ → δ} {l : List γ}
    (h : ∀ x ∈ l, f x = g x) : l.map f = l.map g := by
  induction l with
  | nil => rfl
  | cons a t ih =>
    rw [List.map_cons, List.map_cons, h a (List.mem_cons_self _ _),
      ih (fun x hx => h x (List.mem_cons_of_mem _ hx))]

/-- After the proposal fold, every processed valid entry has a binding
in the map that its own update function leaves unchanged. -/
theorem gStep_fold_stable_aux {VInv : α → Prop} {L : List β}
    (hfp_inv : ∀ p ∈ L, validP p = true → VInv (fp p))
    (hup_inv : ∀ p v, VInv v → VInv (up p v))
    (hNewStable : ∀ p ∈ L, validP p = true → up p (fp p) = fp p)
    (hUpSelf : ∀ p v, VInv v → up p (up p v) = up p v)
    (hStableUp : ∀ p q v, VInv v → up p v = v → up p (up q v) = up q v) :
    ∀ (l acc : List β) (m : List (κ × α)),
      (∀ p ∈ l, p ∈ L) →
      (∀ kv ∈ m, VInv kv.2) →
      (∀ p ∈ acc, validP p = true →
        ∃ v, lookupA (kp p) m = some v ∧ up p v = v) →
      ∀ p ∈ acc ++ l, validP p = true →
        ∃ v, lookupA (kp p) (l.foldl (gStep validP kp fp up) m) = some v ∧
          up p v = v := by
  intro l
  induction l with
  | nil =>
    intro acc m _ _ hacc p hp hv
    rw [List.append_nil] at hp
    exact hacc p hp hv
  | cons q t ih =>
    intro acc m hsub hm hacc p hp hv
    have hqL : q ∈ L := hsub q (List.mem_cons_self _ _)
    have hre : acc ++ q :: t = (acc ++ [q]) ++ t := by simp
    rw [hre] at hp
    rw [List.foldl_cons]
    by_cases hq : validP q = true
    · cases hl : lookupA (kp q) m with
      | none =>
        have hstep : gStep validP kp fp up m q = m ++ [(kp q, fp q)] := by
          unfold gStep
          rw [if_pos hq, hl]
        rw [hstep]
        refine ih (acc ++ [q]) (m ++ [(kp q, fp q)])
          (fun p' hp' => hsub p' (List.mem_cons_of_mem _ hp')) ?_ ?_ p hp hv
        · intro kv hkv
          rcases List.mem_append.1 hkv with h' | h'
          · exact hm kv h'
          · rw [List.mem_singleton.1 h']
            exact hfp_inv q hqL hq
        · intro p' hp' hv'
          rcases List.mem_append.1 hp' with h' | h'
          · obtain ⟨v, hlv, hupv⟩ := hacc p' h' hv'
            exact ⟨v, lookupA_append_left hlv, hupv⟩
          · rw [List.mem_singleton.1 h']
            refine ⟨fp q, ?_, hNewStable q hqL hq⟩
            rw [lookupA_append_none hl]
            exact lookupA_singleton_self _ _
      | some v =>
        have hvinv : VInv v := hm (kp q, v) (mem_of_lookupA_eq_some hl)
        have hstep : gStep validP kp fp up m q = updateA (kp q) (up q) m := by
          unfold gStep
          rw [if_pos hq, hl]
        rw [hstep]
        refine ih (acc ++ [q]) (updateA (kp q) (up q) m)
          (fun p' hp' => hsub p' (List.mem_cons_of_mem _ hp')) ?_ ?_ p hp hv
        · intro kv hkv
          rcases mem_updateA hkv with h' | ⟨w, hwm, he⟩
          · exact hm kv h'
          · rw [he]
            exact hup_inv q w (hm (kp q, w) hwm)
        · intro p' hp' hv'
          rcases List.mem_append.1 hp' with h' | h'
          · obtain ⟨w, hlw, hupw⟩ := hacc p' h' hv'
            by_cases hkk : kp p' = kp q
            · rw [hkk] at hlw
              obtain rfl : v = w := by
                rw [hl] at hlw
                injection hlw
              refine ⟨up q v, ?_, hStableUp p' q v hvinv hupw⟩
              rw [hkk, lookupA_updateA_self, hl]
              rfl
            · exact ⟨w, by rw [lookupA_updateA_ne _ _ hkk]; exact hlw, hupw⟩
          · rw [List.mem_singleton.1 h']
            refine ⟨up q v, ?_, hUpSelf q v hvinv⟩
            rw [lookupA_updateA_self, hl]
            rfl
    · have hstep : gStep validP kp fp up m q = m := by
        unfold gStep
        rw [if_neg hq]
      rw [hstep]
      refine ih (acc ++ [q]) m
        (fun p' hp' => hsub p' (List.mem_cons_of_mem _ hp')) hm ?_ p hp hv
      intro p' hp' hv'
      rcases List.mem_append.1 hp' with h' | h'
      · exact hacc p' h' hv'
      · rw [List.mem_singleton.1 h'] at hv'
        exact absurd hv' hq

/-- Feeding the sorted result of a merge phase back in as the previous
side and re-merging the same proposal entries reproduces the sorted
result exactly. -/
theorem gRound2_eq {κ' : Type} [PyOrd κ'] (VInv : α → Prop) {sk : α → κ'}
    (props : List β) (prevs : List α)
    (hfc_key : ∀ c, kc (fc c) = kc c)
    (hfc_inv : ∀ c, validC c = true → VInv (fc c))
    (hVfix : ∀ v, VInv v → fc v = v)
    (hVvalid : ∀ v, VInv v → validC v = true)
    (hfp_key : ∀ p, kc (fp p) = kp p)
    (hfp_inv : ∀ p ∈ props, validP p = true → VInv (fp p))
    (hup_key : ∀ p v, kc (up p v) = kc v)
    (hup_inv : ∀ p v, VInv v → VInv (up p v))
    (hNewStable : ∀ p ∈ props, validP p = true → up p (fp p) = fp p)
    (hUpSelf : ∀ p v, VInv v → up p (up p v) = up p v)
    (hStableUp : ∀ p q v, VInv v → up p v = v → up p (up q v) = up q v) :
    sortOn sk (valuesA (props.foldl (gStep validP kp fp up)
      ((sortOn sk (valuesA (props.foldl (gStep validP kp fp up)
        (prevs.foldl (gPrevStep validC kc fc) [])))).foldl
        (gPrevStep validC kc fc) []))) =
    sortOn sk (valuesA (props.foldl (gStep validP kp fp up)
      (prevs.foldl (gPrevStep validC kc fc) []))) := by
  set M0 := prevs.foldl (gPrevStep validC kc fc) ([] : List (κ × α)) with hM0
  set M1 := props.foldl (gStep validP kp fp up) M0 with hM1
  set out1 := sortOn sk (valuesA M1) with hout1
  have hQ : ∀ kv ∈ M1, kc kv.2 = kv.1 ∧ VInv kv.2 := by
    apply gStep_fold_pair_inv
    · intro p hp hv
      exact ⟨hfp_key p, hfp_inv p hp hv⟩
    · intro p _ k v hkv
      exact ⟨(hup_key p v).trans hkv.1, hup_inv p v hkv.2⟩
    · apply gPrevStep_fold_pair_inv
      · intro c _ hv
        exact ⟨hfc_key c, hfc_inv c hv⟩
      · intro kv hkv
        simp at hkv
  have hnd1 : (M1.map Prod.fst).Nodup :=
    gStep_fold_keys_nodup (gPrevStep_fold_keys_nodup (by simp))
  have hM0inv : ∀ kv ∈ M0, VInv kv.2 := by
    apply gPrevStep_fold_pair_inv (fun kv => VInv kv.2)
    · intro c _ hv
      exact hfc_inv c hv
    · intro kv hkv
      simp at hkv
  have hstab : ∀ p ∈ props, validP p = true →
      ∃ v, lookupA (kp p) M1 = some v ∧ up p v = v := by
    intro p hp hv
    exact gStep_fold_stable_aux hfp_inv hup_inv hNewStable hUpSelf hStableUp
      props [] M0 (fun p hp => hp) hM0inv (by intro p hp; simp at hp)
      p (by simpa using hp) hv
  have hM1eq : (valuesA M1).map (fun v => (kc v, v)) = M1 := by
    rw [valuesA, List.map_map]
    apply map_eq_self_of
    intro kv hkv
    show (kc kv.2, kv.2) = kv
    rw [(hQ kv hkv).1]
  have hkeysvals : (valuesA M1).map kc = M1.map Prod.fst := by
    rw [valuesA, List.map_map]
    apply map_congr_mem
    intro kv hkv
    exact (hQ kv hkv).1
  have hvalsVInv : ∀ v ∈ out1, VInv v := by
    intro v hv
    rw [hout1, mem_sortOn] at hv
    obtain ⟨kv, hkv, rfl⟩ := List.mem_map.1 hv
    exact (hQ kv hkv).2
  have hndout : (out1.map kc).Nodup := by
    have hperm : List.Perm (out1.map kc) (M1.map Prod.fst) := by
      rw [← hkeysvals]
      exact (sortOn_perm sk (valuesA M1)).map kc
    exact hperm.nodup_iff.2 hnd1
  have hM2a : out1.foldl (gPrevStep validC kc fc) [] =
      out1.map (fun v => (kc v, v)) := by
    rw [gPrevStep_fold_clean
      (fun v hv => hVvalid v (hvalsVInv v hv)) hndout (by simp)]
    rw [List.nil_append]
    apply map_congr_mem
    intro v hv
    rw [hVfix v (hvalsVInv v hv)]
  have hperm2 : List.Perm (out1.map (fun v => (kc v, v))) M1 := by
    have := (sortOn_perm sk (valuesA M1)).map (fun v => (kc v, v))
    rw [hM1eq] at this
    exact this
  have hndM2a : ((out1.map (fun v => (kc v, v))).map Prod.fst).Nodup := by
    rw [List.map_map]
    exact hndout
  have hlook2 : ∀ k, lookupA k (out1.map (fun v => (kc v, v))) =
      lookupA k M1 :=
    fun k => lookupA_perm hperm2 hndM2a k
  have hM2 : props.foldl (gStep validP kp fp up)
      (out1.map (fun v => (kc v, v))) = out1.map (fun v => (kc v, v)) := by
    apply gStep_fold_eq_self
    intro p hp hv
    obtain ⟨v, hl, hu⟩ := hstab p hp hv
    exact ⟨v, (hlook2 (kp p)).trans hl, hu⟩
  rw [hM2a, hM2, valuesA, List.map_map]
  have : out1.map (Prod.snd ∘ fun v => (kc v, v)) = out1 := map_eq_self_of
    (fun x _ => rfl)
  rw [this, hout1, sortOn_idem]

end Generic

/-! ## mergeDesc lemmas -/

theorem mergeDesc_cases (o n : String) :
    mergeDesc o n = pstrip o ∨ mergeDesc o n = pstrip n := by
  unfold mergeDesc
  split
  · split
    · exact Or.inr rfl
    · exact Or.inl rfl
  · unfold orS
    split
    · exact Or.inl rfl
    · exact Or.inr rfl

theorem pstrip_mergeDesc (o n : String) :
    pstrip (mergeDesc o n) = mergeDesc o n := by
  rcases mergeDesc_cases o n with h | h <;> rw [h, pstrip_idem]

theorem length_le_mergeDesc_left (o n : String) :
    (pstrip o).length ≤ (mergeDesc o n).length := by
  unfold mergeDesc
  split
  · split
    · omega
    · exact le_refl _
  · rename_i hb
    unfold orS
    split
    · exact le_refl _
    · rename_i hn
      have ho : pstrip o = "" := by
        by_contra hc
        exact hb ⟨hc, hn⟩
      rw [ho]
      exact Nat.zero_le _

theorem length_le_mergeDesc_right (o n : String) :
    (pstrip n).length ≤ (mergeDesc o n).length := by
  unfold mergeDesc
  split
  · split
    · exact le_refl _
    · omega
  · unfold orS
    split
    · rename_i hn
      rw [hn]
      exact Nat.zero_le _
    · exact le_refl _

theorem mergeDesc_ne_empty_left {o : String} (n : String) (h : pstrip o ≠ "") :
    mergeDesc o n ≠ "" := by
  unfold mergeDesc
  split
  · split
    · rename_i hb _
      exact hb.2
    · exact h
  · unfold orS
    split
    · exact h
    · rename_i hn
      exact hn

theorem mergeDesc_ne_empty_right {n : String} (o : String) (h : pstrip n ≠ "") :
    mergeDesc o n ≠ "" := by
  unfold mergeDesc
  split
  · split
    · exact h
    · rename_i hb _
      exact hb.1
  · unfold orS
    split
    · rename_i hn
      exact absurd hn h
    · exact h

theorem mergeDesc_eq_left {o n : String} (ho : pstrip o = o)
    (h1 : (pstrip n).length ≤ o.length) (h2 : pstrip n ≠ "" → o ≠ "") :
    mergeDesc o n = o := by
  unfold mergeDesc
  rw [ho]
  split
  · rename_i hb
    rw [if_neg (by omega)]
  · rename_i hb
    unfold orS
    split
    · rfl
    · rename_i hn
      exact absurd ⟨h2 hn, hn⟩ hb

/-- Merging a freshly normalized description with its own source is a
no-op. -/
theorem mergeDesc_pstrip_self (d : String) : mergeDesc (pstrip d) d = pstrip d :=
  mergeDesc_eq_left (pstrip_idem d) (le_refl _) (fun h => h)

/-! ## The merge phases as generic instances: classes -/

def clsValidC (c : ClassEntry) : Bool := keyClass c.name != ""

def clsKc (c : ClassEntry) : String := keyClass c.name

def clsFc (c : ClassEntry) : ClassEntry := ⟨c.name, pstrip c.description, c.origin⟩

def clsValidP (c : PClass) : Bool := keyClass c.name != ""

def clsKp (c : PClass) : String := keyClass c.name

def clsFp (c : PClass) : ClassEntry :=
  ⟨c.name, pstrip c.description, c.origin.getD "induced"⟩

def clsUp (c : PClass) (v : ClassEntry) : ClassEntry :=
  { v with description := mergeDesc v.description c.description }

theorem clsPrevStep_eq : clsPrevStep = gPrevStep clsValidC clsKc clsFc := by
  funext m c
  simp only [clsPrevStep, gPrevStep, clsValidC, clsKc, clsFc]
  by_cases h : keyClass c.name = ""
  · rw [if_pos h, if_neg (by simp [h])]
  · rw [if_neg h, if_pos (by simp [h])]

theorem clsPropStep_eq : clsPropStep = gStep clsValidP clsKp clsFp clsUp := by
  funext m c
  simp only [clsPropStep, gStep, clsValidP, clsKp, clsFp, clsUp]
  by_cases h : keyClass c.name = ""
  · rw [if_pos h, if_neg (by simp [h])]
  · rw [if_neg h, if_pos (by simp [h])]
    cases hl : lookupA (keyClass c.name) m with
    | none => rfl
    | some w => rfl

def clsVInv (v : ClassEntry) : Prop :=
  pstrip v.description = v.description ∧ keyClass v.name ≠ ""

/-! ## The merge phases as generic instances: properties -/

def dtValidC (p : PropEntry) : Bool :=
  decide (¬((keyProp p.domain p.name p.range).1 = "" ∨
    (keyProp p.domain p.name p.range).2.1 = ""))

def propKc (p : PropEntry) : String × String × String :=
  keyProp p.domain p.name p.range

def propFc (p : PropEntry) : PropEntry :=
  ⟨p.name, p.domain, p.range, pstrip p.description, p.origin⟩

def dtValidP (p : PProp) : Bool :=
  decide (¬((keyProp p.domain p.name (normRange p.range)).1 = "" ∨
    (keyProp p.domain p.name (normRange p.range)).2.1 = ""))

def dtKp (p : PProp) : String × String × String :=
  keyProp p.domain p.name (normRange p.range)

def dtFp (p : PProp) : PropEntry :=
  ⟨p.name, p.domain, normRange p.range, pstrip p.description,
    p.origin.getD "induced"⟩

def propUp (p : PProp) (v : PropEntry) : PropEntry :=
  { v with description := mergeDesc v.description p.description }

def opValidC (p : PropEntry) : Bool :=
  decide (¬((keyProp p.domain p.name p.range).1 = "" ∨
    (keyProp p.domain p.name p.range).2.1 = "" ∨
    (keyProp p.domain p.name p.range).2.2 = ""))

def opValidP (p : PProp) : Bool :=
  decide (¬((keyProp p.domain p.name p.range).1 = "" ∨
    (keyProp p.domain p.name p.range).2.1 = "" ∨
    (keyProp p.domain p.name p.range).2.2 = ""))

def opKp (p : PProp) : String × String × String :=
  keyProp p.domain p.name p.range

def opFp (p : PProp) : PropEntry :=
  ⟨p.name, p.domain, p.range, pstrip p.description, p.origin.getD "induced"⟩

theorem dtPrevStep_eq : dtPrevStep = gPrevStep dtValidC propKc propFc := by
  funext m p
  simp only [dtPrevStep, gPrevStep, dtValidC, propKc, propFc]
  by_cases h : (keyProp p.domain p.name p.range).1 = "" ∨
      (keyProp p.domain p.name p.range).2.1 = ""
  · rw [if_pos h, if_neg (by simp [h])]
  · rw [if_neg h, if_pos (by simp [h])]

theorem dtPropStep_eq : dtPropStep = gStep dtValidP dtKp dtFp propUp := by
  funext m p
  simp only [dtPropStep, gStep, dtValidP, dtKp, dtFp, propUp]
  by_cases h : (keyProp p.domain p.name (normRange p.range)).1 = "" ∨
      (keyProp p.domain p.name (normRange p.range)).2.1 = ""
  · rw [if_pos h, if_neg (by simp [h])]
  · rw [if_neg h, if_pos (by simp [h])]
    cases hl : lookupA (keyProp p.domain p.name (normRange p.range)) m with
    | none => rfl
    | some w => rfl

theorem opPrevStep_eq : opPrevStep = gPrevStep opValidC propKc propFc := by
  funext m p
  simp only [opPrevStep, gPrevStep, opValidC, propKc, propFc]
  by_cases h : (keyProp p.domain p.name p.range).1 = "" ∨
      (keyProp p.domain p.name p.range).2.1 = "" ∨
      (keyProp p.domain p.name p.range).2.2 = ""
  · rw [if_pos h, if_neg (by simp [h])]
  · rw [if_neg h, if_pos (by simp [h])]

theorem opPropStep_eq : opPropStep = gStep opValidP opKp opFp propUp := by
  funext m p
  simp only [opPropStep, gStep, opValidP, opKp, opFp, propUp]
  by_cases h : (keyProp p.domain p.name p.range).1 = "" ∨
      (keyProp p.domain p.name p.range).2.1 = "" ∨
      (keyProp p.domain p.name p.range).2.2 = ""
  · rw [if_pos h, if_neg (by simp [h])]
  · rw [if_neg h, if_pos (by simp [h])]
    cases hl : lookupA (keyProp p.domain p.name p.range) m with
    | none => rfl
    | some w => rfl

def dtVInv (v : PropEntry) : Prop :=
  pstrip v.description = v.description ∧
    ¬((keyProp v.domain v.name v.range).1 = "" ∨
      (keyProp v.domain v.name v.range).2.1 = "")

def opVInv (v : PropEntry) : Prop :=
  pstrip v.description = v.description ∧
    ¬((keyProp v.domain v.name v.range).1 = "" ∨
      (keyProp v.domain v.name v.range).2.1 = "" ∨
      (keyProp v.domain v.name v.range).2.2 = "")

theorem dt_round2 (prevs : List PropEntry) (props : List PProp) :
    sortOn propSortKey (valuesA (props.foldl dtPropStep
      ((sortOn propSortKey (valuesA (props.foldl dtPropStep
        (prevs.foldl dtPrevStep [])))).foldl dtPrevStep []))) =
    sortOn propSortKey (valuesA (props.foldl dtPropStep
      (prevs.foldl dtPrevStep []))) := by
  rw [dtPrevStep_eq, dtPropStep_eq]
  apply gRound2_eq dtVInv props prevs
  · intro c
    rfl
  · intro c hv
    exact ⟨pstrip_idem _, by simpa [dtValidC] using hv⟩
  · intro v hv
    show PropEntry.mk v.name v.domain v.range (pstrip v.description) v.origin = v
    rw [hv.1]
  · intro v hv
    simpa [dtValidC] using hv.2
  · intro p
    rfl
  · intro p _ hv
    exact ⟨pstrip_idem _, by simpa [dtValidP] using hv⟩
  · intro p v
    rfl
  · intro p v hv
    exact ⟨pstrip_mergeDesc _ _, hv.2⟩
  · intro p _ _
    show propUp p (dtFp p) = dtFp p
    simp only [propUp, dtFp]
    rw [mergeDesc_pstrip_self]
  · intro p v _
    show propUp p (propUp p v) = propUp p v
    simp only [propUp]
    rw [mergeDesc_eq_left (pstrip_mergeDesc _ _) (length_le_mergeDesc_right _ _)
      (fun h => mergeDesc_ne_empty_right _ h)]
  · intro p q v hv hst
    have hd : mergeDesc v.description p.description = v.description :=
      congrArg PropEntry.description hst
    show propUp p (propUp q v) = propUp q v
    simp only [propUp]
    rw [mergeDesc_eq_left (pstrip_mergeDesc _ _) ?_ ?_]
    · calc (pstrip p.description).length
          ≤ (mergeDesc v.description p.description).length :=
            length_le_mergeDesc_right _ _
        _ = v.description.length := by rw [hd]
        _ = (pstrip v.description).length := by rw [hv.1]
        _ ≤ (mergeDesc v.description q.description).length :=
            length_le_mergeDesc_left _ _
    · intro h
      have h1 : mergeDesc v.description p.description ≠ "" :=
        mergeDesc_ne_empty_right _ h
      rw [hd] at h1
      apply mergeDesc_ne_empty_left
      rw [hv.1]
      exact h1

theorem op_round2 (prevs : List PropEntry) (props : List PProp) :
    sortOn propSortKey (valuesA (props.foldl opPropStep
      ((sortOn propSortKey (valuesA (props.foldl opPropStep
        (prevs.foldl opPrevStep [])))).foldl opPrevStep []))) =
    sortOn propSortKey (valuesA (props.foldl opPropStep
      (prevs.foldl opPrevStep []))) := by
  rw [opPrevStep_eq, opPropStep_eq]
  apply gRound2_eq opVInv props prevs
  · intro c
    rfl
  · intro c hv
    exact ⟨pstrip_idem _, by simpa [opValidC] using hv⟩
  · intro v hv
    show PropEntry.mk v.name v.domain v.range (pstrip v.description) v.origin = v
    rw [hv.1]
  · intro v hv
    simpa [opValidC] using hv.2
  · intro p
    rfl
  · intro p _ hv
    exact ⟨pstrip_idem _, by simpa [opValidP] using hv⟩
  · intro p v
    rfl
  · intro p v hv
    exact ⟨pstrip_mergeDesc _ _, hv.2⟩
  · intro p _ _
    show propUp p (opFp p) = opFp p
    simp only [propUp, opFp]
    rw [mergeDesc_pstrip_self]
  · intro p v _
    show propUp p (propUp p v) = propUp p v
    simp only [propUp]
    rw [mergeDesc_eq_left (pstrip_mergeDesc _ _) (length_le_mergeDesc_right _ _)
      (fun h => mergeDesc_ne_empty_right _ h)]
  · intro p q v hv hst
    have hd : mergeDesc v.description p.description = v.description :=
      congrArg PropEntry.description hst
    show propUp p (propUp q v) = propUp q v
    simp only [propUp]
    rw [mergeDesc_eq_left (pstrip_mergeDesc _ _) ?_ ?_]
    · calc (pstrip p.description).length
          ≤ (mergeDesc v.description p.description).length :=
            length_le_mergeDesc_right _ _
        _ = v.description.length := by rw [hd]
        _ = (pstrip v.description).length := by rw [hv.1]
        _ ≤ (mergeDesc v.description q.description).length :=
            length_le_mergeDesc_left _ _
    · intro h
      have h1 : mergeDesc v.description p.description ≠ "" :=
        mergeDesc_ne_empty_right _ h
      rw [hd] at h1
      apply mergeDesc_ne_empty_left
      rw [hv.1]
      exact h1

theorem cls_round2 (prevs : List ClassEntry) (props : List PClass) :
    sortOn (fun x : ClassEntry => plower x.name) (valuesA (props.foldl clsPropStep
      ((sortOn (fun x : ClassEntry => plower x.name) (valuesA (props.foldl clsPropStep
        (prevs.foldl clsPrevStep [])))).foldl clsPrevStep []))) =
    sortOn (fun x : ClassEntry => plower x.name) (valuesA (props.foldl clsPropStep
      (prevs.foldl clsPrevStep []))) := by
  rw [clsPrevStep_eq, clsPropStep_eq]
  apply gRound2_eq clsVInv props prevs
  · intro c
    rfl
  · intro c hv
    exact ⟨pstrip_idem _, by simpa [clsValidC] using hv⟩
  · intro v hv
    show ClassEntry.mk v.name (pstrip v.description) v.origin = v
    rw [hv.1]
  · intro v hv
    simpa [clsValidC] using hv.2
  · intro p
    rfl
  · intro p _ hv
    exact ⟨pstrip_idem _, by simpa [clsValidP] using hv⟩
  · intro p v
    rfl
  · intro p v hv
    exact ⟨pstrip_mergeDesc _ _, hv.2⟩
  · intro p _ _
    show clsUp p (clsFp p) = clsFp p
    simp only [clsUp, clsFp]
    rw [mergeDesc_pstrip_self]
  · intro p v _
    show clsUp p (clsUp p v) = clsUp p v
    simp only [clsUp]
    rw [mergeDesc_eq_left (pstrip_mergeDesc _ _) (length_le_mergeDesc_right _ _)
      (fun h => mergeDesc_ne_empty_right _ h)]
  · intro p q v hv hst
    have hd : mergeDesc v.description p.description = v.description :=
      congrArg ClassEntry.description hst
    show clsUp p (clsUp q v) = clsUp q v
    simp only [clsUp]
    rw [mergeDesc_eq_left (pstrip_mergeDesc _ _) ?_ ?_]
    · calc (pstrip p.description).length
          ≤ (mergeDesc v.description p.description).length :=
            length_le_mergeDesc_right _ _
        _ = v.description.length := by rw [hd]
        _ = (pstrip v.description).length := by rw [hv.1]
        _ ≤ (mergeDesc v.description q.description).length :=
            length_le_mergeDesc_left _ _
    · intro h
      have h1 : mergeDesc v.description p.description ≠ "" :=
        mergeDesc_ne_empty_right _ h
      rw [hd] at h1
      apply mergeDesc_ne_empty_left
      rw [hv.1]
      exact h1

/-! ## The merge phases as generic instances: events -/

theorem sortedUnion_self {a : List String} (h : sortedSet a = a) :
    sortedUnion a a = a := by
  rw [sortedUnion, sortedSet_eq_of_mem_iff a, h]
  intro x
  rw [List.mem_append]
  constructor
  · rintro (hx | hx) <;> exact hx
  · exact Or.inl

def evValidC (e : EventEntry) : Bool := plower (pstrip e.name) != ""

def evKc (e : EventEntry) : String := plower (pstrip e.name)

def evFc (e : EventEntry) : EventEntry :=
  ⟨e.name, e.actors, e.effects, pstrip e.description, e.origin⟩

def evValidP (e : PEvent) : Bool := plower (pstrip e.name) != ""

def evKp (e : PEvent) : String := plower (pstrip e.name)

def evFp (e : PEvent) : EventEntry :=
  ⟨e.name, e.actors, e.effects,
    (match e.description with
      | some d => pstrip d
      | none => ""),
    e.origin.getD "induced"⟩

def evUp (e : PEvent) (v : EventEntry) : EventEntry :=
  { v with actors := sortedUnion v.actors e.actors,
           effects := sortedUnion v.effects e.effects,
           description := match e.description with
             | some d => mergeDesc v.description d
             | none => v.description }

theorem evPrevStep_eq : evPrevStep = gPrevStep evValidC evKc evFc := by
  funext m e
  simp only [evPrevStep, gPrevStep, evValidC, evKc, evFc]
  by_cases h : plower (pstrip e.name) = ""
  · rw [if_pos h, if_neg (by simp [h])]
  · rw [if_neg h, if_pos (by simp [h])]

theorem evPropStep_eq : evPropStep = gStep evValidP evKp evFp evUp := by
  funext m e
  simp only [evPropStep, gStep, evValidP, evKp, evFp, evUp]
  by_cases h : plower (pstrip e.name) = ""
  · rw [if_pos h, if_neg (by simp [h])]
  · rw [if_neg h, if_pos (by simp [h])]
    cases hl : lookupA (plower (pstrip e.name)) m with
    | none => rfl
    | some w => rfl

def evVInv (v : EventEntry) : Prop :=
  pstrip v.description = v.description ∧ plower (pstrip v.name) ≠ ""

theorem ev_round2 (prevs : List EventEntry) (props : List PEvent)
    (hev : ∀ e ∈ props, sortedSet e.actors = e.actors ∧
      sortedSet e.effects = e.effects) :
    sortOn (fun x : EventEntry => plower x.name) (valuesA (props.foldl evPropStep
      ((sortOn (fun x : EventEntry => plower x.name) (valuesA (props.foldl evPropStep
        (prevs.foldl evPrevStep [])))).foldl evPrevStep []))) =
    sortOn (fun x : EventEntry => plower x.name) (valuesA (props.foldl evPropStep
      (prevs.foldl evPrevStep []))) := by
  rw [evPrevStep_eq, evPropStep_eq]
  apply gRound2_eq evVInv props prevs
  · intro c
    rfl
  · intro c hv
    exact ⟨pstrip_idem _, by simpa [evValidC] using hv⟩
  · intro v hv
    show EventEntry.mk v.name v.actors v.effects (pstrip v.description) v.origin = v
    rw [hv.1]
  · intro v hv
    simpa [evValidC] using hv.2
  · intro p
    rfl
  · intro p _ hv
    refine ⟨?_, by simpa [evValidP] using hv⟩
    show pstrip (evFp p).description = (evFp p).description
    cases hd : p.description with
    | some d =>
      simp only [evFp, hd]
      exact pstrip_idem d
    | none =>
      simp only [evFp, hd]
      rfl
  · intro p v
    rfl
  · intro p v hv
    refine ⟨?_, hv.2⟩
    show pstrip (evUp p v).description = (evUp p v).description
    cases hd : p.description with
    | some d =>
      simp only [evUp, hd]
      exact pstrip_mergeDesc _ _
    | none =>
      simp only [evUp, hd]
      exact hv.1
  · intro p hp _
    show evUp p (evFp p) = evFp p
    obtain ⟨ha, he⟩ := hev p hp
    cases hd : p.description with
    | some d =>
      simp only [evUp, evFp, hd]
      rw [sortedUnion_self ha, sortedUnion_self he, mergeDesc_pstrip_self]
    | none =>
      simp only [evUp, evFp, hd]
      rw [sortedUnion_self ha, sortedUnion_self he]
  · intro p v _
    show evUp p (evUp p v) = evUp p v
    cases hd : p.description with
    | some d =>
      simp only [evUp, hd]
      rw [sortedUnion_absorb, sortedUnion_absorb,
        mergeDesc_eq_left (pstrip_mergeDesc _ _) (length_le_mergeDesc_right _ _)
          (fun h => mergeDesc_ne_empty_right _ h)]
    | none =>
      simp only [evUp, hd]
      rw [sortedUnion_absorb, sortedUnion_absorb]
  · intro p q v hv hst
    have ha : sortedUnion v.actors p.actors = v.actors :=
      congrArg EventEntry.actors hst
    have he : sortedUnion v.effects p.effects = v.effects :=
      congrArg EventEntry.effects hst
    have hdesc := congrArg EventEntry.description hst
    show evUp p (evUp q v) = evUp q v
    have hactors : sortedUnion (sortedUnion v.actors q.actors) p.actors =
        sortedUnion v.actors q.actors := by
      apply sortedUnion_eq_left (sortedUnion_sorted _ _) (sortedUnion_nodup _ _)
      intro y hy
      apply mem_sortedUnion.2
      left
      have : y ∈ sortedUnion v.actors p.actors :=
        mem_sortedUnion.2 (Or.inr hy)
      rw [ha] at this
      exact this
    have heffects : sortedUnion (sortedUnion v.effects q.effects) p.effects =
        sortedUnion v.effects q.effects := by
      apply sortedUnion_eq_left (sortedUnion_sorted _ _) (sortedUnion_nodup _ _)
      intro y hy
      apply mem_sortedUnion.2
      left
      have : y ∈ sortedUnion v.effects p.effects :=
        mem_sortedUnion.2 (Or.inr hy)
      rw [he] at this
      exact this
    cases hd : p.description with
    | none =>
      simp only [evUp, hd]
      rw [hactors, heffects]
    | some d =>
      have hmd : mergeDesc v.description d = v.description := by
        simp only [evUp, hd] at hdesc
        exact hdesc
      cases hq : q.description with
      | none =>
        simp only [evUp, hd, hq]
        rw [hactors, heffects, hmd]
      | some e' =>
        simp only [evUp, hd, hq]
        rw [hactors, heffects,
          mergeDesc_eq_left (pstrip_mergeDesc _ _) ?_ ?_]
        · calc (pstrip d).length
              ≤ (mergeDesc v.description d).length :=
                length_le_mergeDesc_right _ _
            _ = v.description.length := by rw [hmd]
            _ = (pstrip v.description).length := by rw [hv.1]
            _ ≤ (mergeDesc v.description e').length :=
                length_le_mergeDesc_left _ _
        · intro h
          have h1 : mergeDesc v.description d ≠ "" :=
            mergeDesc_ne_empty_right _ h
          rw [hmd] at h1
          apply mergeDesc_ne_empty_left
          rw [hv.1]
          exact h1

/-! ## Projections of the merge output -/

theorem merge_classes_def (now : String) (prev : SchemaCard) (prop : AggProposal)
    (nsArg : Option String) :
    (schema_card_from_proposal now prev prop nsArg).classes =
    sortOn (fun x : ClassEntry => plower x.name)
      (valuesA (prop.classes.foldl clsPropStep
        (prev.classes.foldl clsPrevStep []))) := rfl

theorem merge_dt_def (now : String) (prev : SchemaCard) (prop : AggProposal)
    (nsArg : Option String) :
    (schema_card_from_proposal now prev prop nsArg).datatype_properties =
    sortOn propSortKey
      (valuesA (prop.datatype_properties.foldl dtPropStep
        (prev.datatype_properties.foldl dtPrevStep []))) := rfl

theorem merge_op_def (now : String) (prev : SchemaCard) (prop : AggProposal)
    (nsArg : Option String) :
    (schema_card_from_proposal now prev prop nsArg).object_properties =
    sortOn propSortKey
      (valuesA (prop.object_properties.foldl opPropStep
        (prev.object_properties.foldl opPrevStep []))) := rfl

theorem merge_events_def (now : String) (prev : SchemaCard) (prop : AggProposal)
    (nsArg : Option String) :
    (schema_card_from_proposal now prev prop nsArg).events =
    sortOn (fun x : EventEntry => plower x.name)
      (valuesA (prop.events.foldl evPropStep
        (prev.events.foldl evPrevStep []))) := rfl

/-! ## Claim C2: idempotence of the merge -/

/-- An aggregated proposal whose single event carries an unsorted
actors list, exposing the one place where re-merging alters an entry. -/
def c2PropEv : AggProposal :=
  { classes := [], datatype_properties := [], object_properties := [],
    events := [⟨"E", ["b", "a"], [], none, none⟩],
    merge_suggestions := [], warnings := [] }

/-- C2 counterexample: merging `c2PropEv` into the empty card stores the
event's actors verbatim as `["b", "a"]`; re-merging the already-merged
card with the same proposal rewrites them to the sorted set `["a", "b"]`,
so the second merge does change an event entry (only the version
timestamp was allowed to differ). -/
theorem C2_counterexample :
    (schema_card_from_proposal "t1" (emptyCard "t0") c2PropEv none).events.map
        EventEntry.actors = [["b", "a"]] ∧
    (schema_card_from_proposal "t2"
        (schema_card_from_proposal "t1" (emptyCard "t0") c2PropEv none)
        c2PropEv none).events.map EventEntry.actors = [["a", "b"]] ∧
    (schema_card_from_proposal "t2"
        (schema_card_from_proposal "t1" (emptyCard "t0") c2PropEv none)
        c2PropEv none).events ≠
      (schema_card_from_proposal "t1" (emptyCard "t0") c2PropEv none).events := by
  refine ⟨by decide, by decide, by decide⟩

/-- C2 (amended): merging the already-merged card again with the same
proposal changes no class, datatype-property or object-property entry
in any field; event entries are likewise unchanged provided every event
in the proposal supplies its actors and effects lists already in sorted
set form (otherwise the second merge normalizes them, as the
counterexample shows).  The version timestamp is excepted. -/
theorem C2_merge_idempotent (now1 now2 : String) (prev : SchemaCard)
    (prop : AggProposal) (nsArg : Option String)
    (hev : ∀ e ∈ prop.events, sortedSet e.actors = e.actors ∧
      sortedSet e.effects = e.effects) :
    (schema_card_from_proposal now2
        (schema_card_from_proposal now1 prev prop nsArg) prop nsArg).classes =
      (schema_card_from_proposal now1 prev prop nsArg).classes ∧
    (schema_card_from_proposal now2
        (schema_card_from_proposal now1 prev prop nsArg) prop
        nsArg).datatype_properties =
      (schema_card_from_proposal now1 prev prop nsArg).datatype_properties ∧
    (schema_card_from_proposal now2
        (schema_card_from_proposal now1 prev prop nsArg) prop
        nsArg).object_properties =
      (schema_card_from_proposal now1 prev prop nsArg).object_properties ∧
    (schema_card_from_proposal now2
        (schema_card_from_proposal now1 prev prop nsArg) prop nsArg).events =
      (schema_card_from_proposal now1 prev prop nsArg).events := by
  refine ⟨?_, ?_, ?_, ?_⟩
  · rw [merge_classes_def, merge_classes_def]
    exact cls_round2 prev.classes prop.classes
  · rw [merge_dt_def, merge_dt_def]
    exact dt_round2 prev.datatype_properties prop.datatype_properties
  · rw [merge_op_def, merge_op_def]
    exact op_round2 prev.object_properties prop.object_properties
  · rw [merge_events_def, merge_events_def]
    exact ev_round2 prev.events prop.events hev

/-- A small concrete proposal with normalized event lists for the C2
witness. -/
def c2WitProp : AggProposal :=
  { classes := [⟨"Person", "A human.", none⟩],
    datatype_properties := [⟨"name", "Person", "String", "the name", none⟩],
    object_properties := [⟨"knows", "Person", "Person", "", none⟩],
    events := [⟨"Hired", ["a", "b"], ["c"], some "hiring", none⟩],
    merge_suggestions := [], warnings := [] }

/-- C2 witness: the amended idempotence theorem applied to a concrete
previous card and proposal with sorted, duplicate-free event lists. -/
theorem C2_merge_idempotent_witness :
    (schema_card_from_proposal "t2"
        (schema_card_from_proposal "t1" (emptyCard "t0") c2WitProp none)
        c2WitProp none).classes =
      (schema_card_from_proposal "t1" (emptyCard "t0") c2WitProp none).classes ∧
    (schema_card_from_proposal "t2"
        (schema_card_from_proposal "t1" (emptyCard "t0") c2WitProp none)
        c2WitProp none).datatype_properties =
      (schema_card_from_proposal "t1" (emptyCard "t0") c2WitProp
        none).datatype_properties ∧
    (schema_card_from_proposal "t2"
        (schema_card_from_proposal "t1" (emptyCard "t0") c2WitProp none)
        c2WitProp none).object_properties =
      (schema_card_from_proposal "t1" (emptyCard "t0") c2WitProp
        none).object_properties ∧
    (schema_card_from_proposal "t2"
        (schema_card_from_proposal "t1" (emptyCard "t0") c2WitProp none)
        c2WitProp none).events =
      (schema_card_from_proposal "t1" (emptyCard "t0") c2WitProp none).events :=
  C2_merge_idempotent "t1" "t2" (emptyCard "t0") c2WitProp none (by decide)

/-! ## Claim C4: stable instance IRIs -/

/-- The characters of a lower-case hexadecimal digest. -/
def hexDigits : List Char :=
  "0123456789abcdef".data

/-- C4: for every instance proposal whose stripped class name is
non-empty, the emitted IRI is namespace ++ className ++ "/" ++ a digest
of fixed length 10 computed only from (className, label-or-idHint,
chunkId) — assuming the external SHA-1 produces 40-character hex
digests — and any second instance proposal and chunk with the same
class, resolved label and chunk id yields the identical IRI. -/
theorem C4_stable_instance_iri (sha1hex : String → String)
    (ns chunk_id : String) (inst : InstanceProp) (iri : String)
    (hsha : ∀ s, (sha1hex s).length = 40 ∧ ∀ c ∈ (sha1hex s).data, c ∈ hexDigits)
    (hiri : instanceIri sha1hex ns chunk_id inst = some iri) :
    iri = ns ++ pstrip inst.cls ++ "/" ++
      pstake 10 (sha1hex (pstrip inst.cls ++ "|" ++ instanceLabel inst ++ "|" ++
        chunk_id)) ∧
    (pstake 10 (sha1hex (pstrip inst.cls ++ "|" ++ instanceLabel inst ++ "|" ++
      chunk_id))).length = 10 ∧
    (∀ c ∈ (pstake 10 (sha1hex (pstrip inst.cls ++ "|" ++ instanceLabel inst ++
      "|" ++ chunk_id))).data, c ∈ hexDigits) ∧
    (∀ (inst₂ : InstanceProp) (chunk₂ : String),
      pstrip inst₂.cls = pstrip inst.cls →
      instanceLabel inst₂ = instanceLabel inst →
      chunk₂ = chunk_id →
      instanceIri sha1hex ns chunk₂ inst₂ = some iri) := by
  unfold instanceIri at hiri
  by_cases hc : pstrip inst.cls = ""
  · rw [if_pos hc] at hiri
    exact absurd hiri (by simp)
  · rw [if_neg hc] at hiri
    have hiri' : iri = stable_instance_iri sha1hex ns (pstrip inst.cls)
        (instanceLabel inst) chunk_id := by
      injection hiri.symm
    refine ⟨?_, ?_, ?_, ?_⟩
    · rw [hiri']
      rfl
    · show (pstake 10 (sha1hex _)).length = 10
      unfold pstake
      show (List.take 10 _).length = 10
      rw [List.length_take]
      have h40 : (sha1hex (pstrip inst.cls ++ "|" ++ instanceLabel inst ++ "|" ++
          chunk_id)).data.length = 40 := (hsha _).1
      rw [h40]
      decide
    · intro c hcmem
      apply (hsha _).2
      unfold pstake at hcmem
      exact List.take_subset _ _ hcmem
    · intro inst₂ chunk₂ h1 h2 h3
      unfold instanceIri
      rw [if_neg (h1 ▸ hc), hiri']
      rw [h1, h2, h3]

/-- A stand-in for the external SHA-1 used by the C4 witness: it
satisfies the 40-character-hex-digest contract. -/
def c4Sha (s : String) : String :=
  "0123456789abcdef0123456789abcdef01234567"

/-- C4 witness: the IRI theorem applied at the spec's
(class="Invoice", label="INV-001", chunkId="doc1#c3") scenario; a
second extraction run with the same class, resolved label and chunk id
yields the identical IRI. -/
theorem C4_stable_instance_iri_witness :
    instanceIri c4Sha "http://x/" "doc1#c3" ⟨"Invoice", some "INV-001", none⟩ =
      some "http://x/Invoice/0123456789" ∧
    instanceIri c4Sha "http://x/" "doc1#c3" ⟨"Invoice", none, some "INV-001"⟩ =
      some "http://x/Invoice/0123456789" := by
  have hhex : ∀ c ∈ ("0123456789abcdef0123456789abcdef01234567").data,
      c ∈ hexDigits := by decide
  have h := C4_stable_instance_iri c4Sha "http://x/" "doc1#c3"
    ⟨"Invoice", some "INV-001", none⟩ "http://x/Invoice/0123456789"
    (fun s => ⟨rfl, fun c hc => hhex c hc⟩) (by decide)
  exact ⟨by decide, h.2.2.2 ⟨"Invoice", none, some "INV-001"⟩ "doc1#c3"
    (by decide) (by decide) rfl⟩

/-! ## Claim C5: registration validation -/

/-- C5: registering with an empty (or all-whitespace) slug or ontology
content returns the descriptive validation error and leaves the catalog
state — ontology files and manifest — exactly as it was: the endpoint
raises before writing anything. -/
theorem C5_register_validation (parse : String → TtlGraph) (body : AddBody)
    (st : CatalogState)
    (h : pstrip body.slug = "" ∨ pstrip body.ttl_content = "") :
    add_ontology parse body st =
      (st, Except.error "slug and ttl_content are required.") := by
  unfold add_ontology
  rw [if_pos h]

/-- A dummy parser for the C5 witness. -/
def c5Parse (s : String) : TtlGraph :=
  ⟨[], [], [], [], fun _ => "", fun _ => "", fun _ => ""⟩

/-- A non-empty catalog state for the C5 witness. -/
def c5St : CatalogState :=
  ⟨[("foaf.ttl", "@prefix .")],
   [⟨"foaf", "FOAF", "http://xmlns.com/foaf/0.1/", "", "foaf.ttl", []⟩]⟩

/-- C5 witness: an empty slug fails with the validation error and the
previously registered catalog state is untouched. -/
theorem C5_register_validation_witness :
    add_ontology c5Parse ⟨"", "@prefix x: <http://x/> .", "", "", []⟩ c5St =
      (c5St, Except.error "slug and ttl_content are required.") :=
  C5_register_validation c5Parse ⟨"", "@prefix x: <http://x/> .", "", "", []⟩
    c5St (Or.inl (by decide))

/-! ## Claim C7: referential-integrity warnings -/

theorem merge_warnings_def (now : String) (prev : SchemaCard)
    (prop : AggProposal) (nsArg : Option String) :
    (schema_card_from_proposal now prev prop nsArg).warnings =
    mergeWarnings prev.warnings prop.warnings
      (schema_card_from_proposal now prev prop nsArg).classes
      (schema_card_from_proposal now prev prop nsArg).datatype_properties
      (schema_card_from_proposal now prev prop nsArg).object_properties := rfl

theorem mem_classNamesLower {classes : List ClassEntry} {s : String} :
    s ∈ classNamesLower classes ↔
      ∃ c ∈ classes, c.name ≠ "" ∧ plower c.name = s := by
  unfold classNamesLower
  rw [List.mem_filterMap]
  constructor
  · rintro ⟨c, hc, he⟩
    by_cases h : c.name = ""
    · rw [if_pos h] at he
      exact absurd he (by simp)
    · rw [if_neg h] at he
      exact ⟨c, hc, h, by injection he⟩
  · rintro ⟨c, hc, hne, he⟩
    exact ⟨c, hc, by rw [if_neg hne, he]⟩

/-- C7: the merge is total (never raises) and its post-merge sanity
pass records one warning per dangling reference: for any datatype
property of the merged card whose non-empty domain matches no merged
class name case-insensitively, the domain warning string is in the
card's warnings; for any object property, the same holds for its
domain and for its range. -/
theorem C7_referential_warnings (now : String) (prev : SchemaCard)
    (prop : AggProposal) (nsArg : Option String) (p : PropEntry) :
    (p ∈ (schema_card_from_proposal now prev prop nsArg).datatype_properties →
      p.domain ≠ "" →
      (∀ c ∈ (schema_card_from_proposal now prev prop nsArg).classes,
        c.name ≠ "" → plower c.name ≠ plower p.domain) →
      dtWarnStr p ∈ (schema_card_from_proposal now prev prop nsArg).warnings) ∧
    (p ∈ (schema_card_from_proposal now prev prop nsArg).object_properties →
      p.domain ≠ "" →
      (∀ c ∈ (schema_card_from_proposal now prev prop nsArg).classes,
        c.name ≠ "" → plower c.name ≠ plower p.domain) →
      opDomWarnStr p ∈ (schema_card_from_proposal now prev prop nsArg).warnings) ∧
    (p ∈ (schema_card_from_proposal now prev prop nsArg).object_properties →
      p.range ≠ "" →
      (∀ c ∈ (schema_card_from_proposal now prev prop nsArg).classes,
        c.name ≠ "" → plower c.name ≠ plower p.range) →
      opRngWarnStr p ∈ (schema_card_from_proposal now prev prop nsArg).warnings) := by
  set out := schema_card_from_proposal now prev prop nsArg with hout
  have hnotin : ∀ s : String,
      (∀ c ∈ out.classes, c.name ≠ "" → plower c.name ≠ s) →
      s ∉ classNamesLower out.classes := by
    intro s hs hmem
    obtain ⟨c, hc, hne, he⟩ := mem_classNamesLower.1 hmem
    exact hs c hc hne he
  refine ⟨?_, ?_, ?_⟩
  · intro hp hd hcls
    rw [hout, merge_warnings_def, ← hout]
    unfold mergeWarnings
    apply mem_firstDedup.2
    rw [List.mem_append]
    left
    rw [List.mem_append]
    right
    apply List.mem_filterMap.2
    refine ⟨p, hp, ?_⟩
    rw [if_pos ⟨hd, hnotin _ hcls⟩]
  · intro hp hd hcls
    rw [hout, merge_warnings_def, ← hout]
    unfold mergeWarnings
    apply mem_firstDedup.2
    rw [List.mem_append]
    right
    apply List.mem_flatMap.2
    refine ⟨p, hp, ?_⟩
    rw [List.mem_append]
    left
    rw [if_pos ⟨hd, hnotin _ hcls⟩]
    exact List.mem_singleton.2 rfl
  · intro hp hr hcls
    rw [hout, merge_warnings_def, ← hout]
    unfold mergeWarnings
    apply mem_firstDedup.2
    rw [List.mem_append]
    right
    apply List.mem_flatMap.2
    refine ⟨p, hp, ?_⟩
    rw [List.mem_append]
    right
    rw [if_pos ⟨hr, hnotin _ hcls⟩]
    exact List.mem_singleton.2 rfl

/-- The previous card of the C7 witness: its only class is "Order". -/
def c7Prev : SchemaCard :=
  { version := "v", ns := "http://x/", classes := [⟨"Order", "", "seed"⟩],
    datatype_properties := [], object_properties := [], events := [],
    aliases := [], warnings := [] }

/-- The aggregated proposal of the C7 witness: one object property
`{domain: "Order", name: "hasItem", range: "LineItem"}`. -/
def c7Prop : AggProposal :=
  { classes := [], datatype_properties := [],
    object_properties := [⟨"hasItem", "Order", "LineItem", "", none⟩],
    events := [], merge_suggestions := [], warnings := [] }

/-- The merged object-property entry of the C7 witness. -/
def c7Entry : PropEntry := ⟨"hasItem", "Order", "LineItem", "", "induced"⟩

/-- C7 witness: merging the hasItem proposal into the Order-only card
succeeds, keeps the property, and the card's warnings contain the
warning naming hasItem and the missing LineItem range class. -/
theorem C7_referential_warnings_witness :
    c7Entry ∈ (schema_card_from_proposal "t" c7Prev c7Prop
      none).object_properties ∧
    "ObjectProperty hasItem refers to unknown range class LineItem." ∈
      (schema_card_from_proposal "t" c7Prev c7Prop none).warnings :=
  ⟨by decide,
   (C7_referential_warnings "t" c7Prev c7Prop none c7Entry).2.2
     (by decide) (by decide) (by decide)⟩

/-! ## Claim C1: the closed range set -/

/-- A previous card carrying a non-canonical range. -/
def c1PrevDec : SchemaCard :=
  { version := "v", ns := "", classes := [],
    datatype_properties := [⟨"p", "A", "Decimal", "", "x"⟩],
    object_properties := [], events := [], aliases := [], warnings := [] }

/-- C1 counterexample: the merger copies ranges of the *previous* card
verbatim, so merging an empty proposal into a previous card holding
range "Decimal" outputs a card whose datatype-property range is
"Decimal", outside the closed set — the claim's universal
quantification over previous cards fails. -/
theorem C1_counterexample :
    ((schema_card_from_proposal "t" c1PrevDec ⟨[], [], [], [], [], []⟩
        none).datatype_properties.map PropEntry.range) = ["Decimal"] ∧
    "Decimal" ∉ DT_RANGES := by
  refine ⟨by decide, by decide⟩

theorem normRange_mem (r : String) : normRange r ∈ DT_RANGES := by
  show (if plower (orS r "any") ∈ DT_RANGES then plower (orS r "any")
    else "any") ∈ DT_RANGES
  split
  · assumption
  · decide

theorem xsdToCardRange_mem (u : String) : xsdToCardRange u ∈ DT_RANGES := by
  unfold xsdToCardRange
  cases h : lookupA u xsdRangeMap with
  | none => decide
  | some r =>
    have hmem : (u, r) ∈ xsdRangeMap := mem_of_lookupA_eq_some h
    have hall : ∀ kv ∈ xsdRangeMap, kv.2 ∈ DT_RANGES := by decide
    exact hall (u, r) hmem

theorem ttl_dt_range_mem (g : TtlGraph) (slug : String) (ns : Option String) :
    ∀ p ∈ (ttl_to_schema_card g slug ns).datatype_properties,
      p.range ∈ DT_RANGES := by
  intro p hp
  unfold ttl_to_schema_card at hp
  simp only [List.mem_map] at hp
  obtain ⟨uri, _, rfl⟩ := hp
  by_cases h : g.rangeOf uri = ""
  · simp only [if_pos h]
    decide
  · simp only [if_neg h]
    exact xsdToCardRange_mem _

theorem firstSeenStep_fold_pair_inv {kappa alpha : Type} [DecidableEq kappa]
    {key : alpha → kappa} (Q : kappa × alpha → Prop) {l : List alpha}
    {m : List (kappa × alpha)}
    (hl : ∀ c ∈ l, Q (key c, c)) (hm : ∀ kv ∈ m, Q kv) :
    ∀ kv ∈ l.foldl (firstSeenStep key) m, Q kv := by
  induction l generalizing m with
  | nil => exact hm
  | cons c t ih =>
    apply ih (fun c' hc' => hl c' (List.mem_cons_of_mem _ hc'))
    intro kv hkv
    unfold firstSeenStep at hkv
    split at hkv
    · exact hm kv hkv
    · rcases List.mem_append.1 hkv with h' | h'
      · exact hm kv h'
      · rw [List.mem_singleton.1 h']
        exact hl c (List.mem_cons_self _ _)

theorem compose_seenD_inv (parse : String → TtlGraph) (st : CatalogState)
    {Q : PropEntry → Prop}
    (hcard : ∀ g slug ns, ∀ p ∈ (ttl_to_schema_card g slug ns).datatype_properties,
      Q p) :
    ∀ (slugs : List String) (acc : ComposeSt),
      (∀ kv ∈ acc.seenD, Q kv.2) →
      ∀ kv ∈ (slugs.foldl (composeStep parse st) acc).seenD, Q kv.2 := by
  intro slugs
  induction slugs with
  | nil => exact fun acc hacc => hacc
  | cons slug t ih =>
    intro acc hacc
    rw [List.foldl_cons]
    apply ih
    unfold composeStep
    cases h : slugLookup st slug with
    | none => exact hacc
    | some entry =>
      intro kv hkv
      refine firstSeenStep_fold_pair_inv (fun kv => Q kv.2) ?_ hacc kv hkv
      intro c hc
      exact hcard _ _ _ c hc

/-- C1 (amended): the merger *preserves* the closed-range invariant —
whenever every datatype-property range of the previous card lies in
{string, number, integer, boolean, date, datetime, enum, any}, so does
every range of the merged card, proposal ranges being lower-cased and
coerced into the set ("Decimal" and "" both become "any"); and every
baseline composition satisfies the invariant unconditionally.  (For an
arbitrary previous card the original claim fails: see the
counterexample — previous-card ranges are copied verbatim.) -/
theorem C1_range_closed (now : String) (prev : SchemaCard) (prop : AggProposal)
    (nsArg : Option String) (parse : String → TtlGraph) (st : CatalogState)
    (cnow : String) (slugs : List String) (tns : Option String)
    (hprev : ∀ p ∈ prev.datatype_properties, p.range ∈ DT_RANGES) :
    (∀ p ∈ (schema_card_from_proposal now prev prop nsArg).datatype_properties,
      p.range ∈ DT_RANGES) ∧
    (∀ p ∈ (compose_baselines parse st cnow slugs tns).datatype_properties,
      p.range ∈ DT_RANGES) ∧
    normRange "Decimal" = "any" ∧ normRange "" = "any" := by
  refine ⟨?_, ?_, by decide, by decide⟩
  · intro p hp
    rw [merge_dt_def] at hp
    rw [mem_sortOn] at hp
    obtain ⟨kv, hkv, rfl⟩ := List.mem_map.1 hp
    rw [dtPrevStep_eq, dtPropStep_eq] at hkv
    refine gStep_fold_pair_inv
      (fun kv : (String × String × String) × PropEntry =>
        kv.2.range ∈ DT_RANGES) ?_ ?_ ?_ kv hkv
    · intro q _ _
      exact normRange_mem q.range
    · intro q _ k v hv
      exact hv
    · refine gPrevStep_fold_pair_inv
        (fun kv : (String × String × String) × PropEntry =>
          kv.2.range ∈ DT_RANGES) ?_ ?_
      · intro c hc _
        exact hprev c hc
      · intro kv hkv
        simp at hkv
  · intro p hp
    have hp' : p ∈ sortOn propSortKey
        (valuesA (slugs.foldl (composeStep parse st)
          ⟨composeInit cnow tns, [], [], []⟩).seenD) := hp
    rw [mem_sortOn] at hp'
    obtain ⟨kv, hkv, rfl⟩ := List.mem_map.1 hp'
    exact compose_seenD_inv parse st
      (fun g slug ns => ttl_dt_range_mem g slug ns) slugs _
      (by intro kv hkv; simp at hkv) kv hkv

/-- An aggregated proposal offering ranges "Decimal" and "" for the C1
witness. -/
def c1WitProp : AggProposal :=
  { classes := [], datatype_properties :=
      [⟨"p", "A", "Decimal", "", none⟩, ⟨"q", "A", "", "", none⟩],
    object_properties := [], events := [], merge_suggestions := [],
    warnings := [] }

/-- C1 witness: the amended theorem applied to the empty previous card
and the Decimal/empty-range proposal (both entries land in the card
with range "any", a member of the closed set). -/
theorem C1_range_closed_witness :
    ((∀ p ∈ (schema_card_from_proposal "t" (emptyCard "t0") c1WitProp
        none).datatype_properties, p.range ∈ DT_RANGES) ∧
     (∀ p ∈ (compose_baselines c5Parse c5St "t" ["foaf"]
        none).datatype_properties, p.range ∈ DT_RANGES) ∧
     normRange "Decimal" = "any" ∧ normRange "" = "any") ∧
    ((schema_card_from_proposal "t" (emptyCard "t0") c1WitProp
        none).datatype_properties.map PropEntry.range) = ["any", "any"] :=
  ⟨C1_range_closed "t" (emptyCard "t0") c1WitProp none c5Parse c5St "t"
      ["foaf"] none (by decide),
   by decide⟩

/-! ## Claim C9: case-insensitive class aggregation -/

theorem string_length_pos {s : String} (h : s ≠ "") : 0 < s.length := by
  rcases Nat.eq_zero_or_pos s.length with h0 | h0
  · exfalso
    apply (string_ne_empty_iff s).1 h
    have : s.data.length = 0 := h0
    exact List.length_eq_zero.1 this
  · exact h0

/-- C9: aggregating two chunk proposals that each propose one class,
with names equal up to ASCII case (both non-empty) and with a non-empty
first description strictly shorter than the second, yields exactly one
class entry: named with the first proposal's casing and carrying the
second (longer) description. -/
theorem C9_case_insensitive_classes (cid1 cid2 n1 d1 n2 d2 : String)
    (hn1 : n1 ≠ "") (hn2 : n2 ≠ "") (hk : plower n1 = plower n2)
    (hd1 : d1 ≠ "") (hlen : d1.length < d2.length) :
    (aggregate_chunk_proposals
      [⟨cid1, [], [], [⟨n1, d1, []⟩], [], [], []⟩,
       ⟨cid2, [], [], [⟨n2, d2, []⟩], [], [], []⟩]).classes =
    [⟨n1, d2, []⟩] := by
  have hkk : aggKey n2 = aggKey n1 := by
    unfold aggKey
    rw [← pstrip_plower, ← pstrip_plower, hk]
  have hd2 : d2 ≠ "" := by
    apply string_ne_empty_of_length
    have := string_length_pos hd1
    omega
  have h1 : aggClsStep cid1 [] (⟨n1, d1, []⟩ : CPClass) =
      [(aggKey n1, (⟨n1, d1, []⟩ : AClass))] := by
    unfold aggClsStep
    rw [if_neg hn1]
    rfl
  have hagg : aggDescMerge d1 d2 = d2 := by
    unfold aggDescMerge
    rw [if_pos ⟨hd2, Or.inr hlen⟩]
  have h2 : aggClsStep cid2 [(aggKey n1, (⟨n1, d1, []⟩ : AClass))]
      (⟨n2, d2, []⟩ : CPClass) = [(aggKey n1, (⟨n1, d2, []⟩ : AClass))] := by
    unfold aggClsStep
    rw [if_neg hn2]
    dsimp only
    rw [hkk, lookupA_singleton_self]
    dsimp only
    unfold updateA
    rw [if_pos rfl]
    dsimp only
    rw [hagg]
    rfl
  show valuesA (aggClsStep cid2 (aggClsStep cid1 [] ⟨n1, d1, []⟩)
    ⟨n2, d2, []⟩) = [(⟨n1, d2, []⟩ : AClass)]
  rw [h1, h2]
  rfl

/-- C9 witness: the spec's Person/person scenario — one class entry,
first-seen casing "Person", longer description retained. -/
theorem C9_case_insensitive_classes_witness :
    (aggregate_chunk_proposals
      [⟨"c1", [], [], [⟨"Person", "A human.", []⟩], [], [], []⟩,
       ⟨"c2", [], [], [⟨"person", "A human being, identified by name.", []⟩],
        [], [], []⟩]).classes =
    [⟨"Person", "A human being, identified by name.", []⟩] :=
  C9_case_insensitive_classes "c1" "c2" "Person" "A human." "person"
    "A human being, identified by name." (by decide) (by decide) (by decide)
    (by decide) (by decide)

/-! ## The aggregator loops as generic instances

Each aggregation loop is a `gStep` fold over entries tagged with their
chunk proposal's `chunk_id` (the evidence default). -/

def aggClsValidP (pc : String × CPClass) : Bool := pc.2.name != ""

def aggClsKp (pc : String × CPClass) : String := aggKey pc.2.name

def aggClsFp (pc : String × CPClass) : AClass :=
  ⟨pc.2.name, pc.2.description, normalizeEvidence pc.1 pc.2.evidence⟩

def aggClsUp (pc : String × CPClass) (v : AClass) : AClass :=
  { v with description := aggDescMerge v.description pc.2.description,
           evidence := mergeEvidence pc.1 v.evidence pc.2.evidence }

def aggPropValidP (pp : String × CPProp) : Bool :=
  !(pp.2.domain == "" || pp.2.name == "" || pp.2.range == "")

def aggPropKp (pp : String × CPProp) : String × String × String :=
  (aggKey pp.2.domain, aggKey pp.2.name, aggKey pp.2.range)

def aggPropFp (pp : String × CPProp) : AProp :=
  ⟨pp.2.name, pp.2.domain, pp.2.range, pp.2.description,
    normalizeEvidence pp.1 pp.2.evidence⟩

def aggPropUp (pp : String × CPProp) (v : AProp) : AProp :=
  { v with description := aggDescMerge v.description pp.2.description,
           evidence := mergeEvidence pp.1 v.evidence pp.2.evidence }

def aggEvValidP (pe : String × CPEvent) : Bool := pe.2.name != ""

def aggEvKp (pe : String × CPEvent) : String := aggKey pe.2.name

def aggEvFp (pe : String × CPEvent) : AEvent :=
  ⟨pe.2.name, pe.2.actors, pe.2.effects, pe.2.description,
    normalizeEvidence pe.1 pe.2.evidence⟩

def aggEvUp (pe : String × CPEvent) (v : AEvent) : AEvent :=
  { v with actors := sortedUnion v.actors pe.2.actors,
           effects := sortedUnion v.effects pe.2.effects,
           description := aggDescMerge v.description pe.2.description,
           evidence := mergeEvidence pe.1 v.evidence pe.2.evidence }

theorem aggClsStep_eq (cid : String) (m : List (String × AClass)) (c : CPClass) :
    aggClsStep cid m c =
      gStep aggClsValidP aggClsKp aggClsFp aggClsUp m (cid, c) := by
  simp only [aggClsStep, gStep, aggClsValidP, aggClsKp, aggClsFp, aggClsUp]
  by_cases h : c.name = ""
  · rw [if_pos h, if_neg (by simp [h])]
  · rw [if_neg h, if_pos (by simp [h])]
    cases hl : lookupA (aggKey c.name) m with
    | none => rfl
    | some w => rfl

theorem aggPropStep_eq (cid : String)
    (m : List ((String × String × String) × AProp)) (p : CPProp) :
    aggPropStep cid m p =
      gStep aggPropValidP aggPropKp aggPropFp aggPropUp m (cid, p) := by
  simp only [aggPropStep, gStep, aggPropValidP, aggPropKp, aggPropFp, aggPropUp]
  by_cases h : p.domain = "" ∨ p.name = "" ∨ p.range = ""
  · rw [if_pos h, if_neg (by simp; tauto)]
  · rw [if_neg h, if_pos (by simp; tauto)]
    cases hl : lookupA (aggKey p.domain, aggKey p.name, aggKey p.range) m with
    | none => rfl
    | some w => rfl

theorem aggEvStep_eq (cid : String) (m : List (String × AEvent)) (e : CPEvent) :
    aggEvStep cid m e =
      gStep aggEvValidP aggEvKp aggEvFp aggEvUp m (cid, e) := by
  simp only [aggEvStep, gStep, aggEvValidP, aggEvKp, aggEvFp, aggEvUp]
  by_cases h : e.name = ""
  · rw [if_pos h, if_neg (by simp [h])]
  · rw [if_neg h, if_pos (by simp [h])]
    cases hl : lookupA (aggKey e.name) m with
    | none => rfl
    | some w => rfl

/-- The class entries of all chunk proposals, each tagged with its
proposal's chunk id. -/
def taggedClasses (cps : List ChunkProposal) : List (String × CPClass) :=
  cps.flatMap (fun cp => cp.classes.map (fun c => (cp.chunk_id, c)))

/-- The datatype-property entries, tagged. -/
def taggedDProps (cps : List ChunkProposal) : List (String × CPProp) :=
  cps.flatMap (fun cp => cp.datatype_properties.map (fun p => (cp.chunk_id, p)))

/-- The object-property entries, tagged. -/
def taggedOProps (cps : List ChunkProposal) : List (String × CPProp) :=
  cps.flatMap (fun cp => cp.object_properties.map (fun p => (cp.chunk_id, p)))

/-- The event entries, tagged. -/
def taggedEvents (cps : List ChunkProposal) : List (String × CPEvent) :=
  cps.flatMap (fun cp => cp.events.map (fun e => (cp.chunk_id, e)))

theorem aggState_classes_eq (cps : List ChunkProposal) (st : AggState) :
    (cps.foldl aggChunkStep st).classes =
    (taggedClasses cps).foldl (gStep aggClsValidP aggClsKp aggClsFp aggClsUp)
      st.classes := by
  induction cps generalizing st with
  | nil => simp [taggedClasses]
  | cons cp t ih =>
    rw [List.foldl_cons, ih]
    unfold taggedClasses
    rw [List.flatMap_cons, List.foldl_append, List.foldl_map]
    have : (aggChunkStep st cp).classes =
        cp.classes.foldl
          (fun m c => gStep aggClsValidP aggClsKp aggClsFp aggClsUp m
            (cp.chunk_id, c)) st.classes := by
      show cp.classes.foldl (aggClsStep cp.chunk_id) st.classes = _
      congr 1
      funext m c
      exact aggClsStep_eq cp.chunk_id m c
    rw [this]

theorem aggState_dprops_eq (cps : List ChunkProposal) (st : AggState) :
    (cps.foldl aggChunkStep st).dprops =
    (taggedDProps cps).foldl (gStep aggPropValidP aggPropKp aggPropFp aggPropUp)
      st.dprops := by
  induction cps generalizing st with
  | nil => simp [taggedDProps]
  | cons cp t ih =>
    rw [List.foldl_cons, ih]
    unfold taggedDProps
    rw [List.flatMap_cons, List.foldl_append, List.foldl_map]
    have : (aggChunkStep st cp).dprops =
        cp.datatype_properties.foldl
          (fun m p => gStep aggPropValidP aggPropKp aggPropFp aggPropUp m
            (cp.chunk_id, p)) st.dprops := by
      show cp.datatype_properties.foldl (aggPropStep cp.chunk_id) st.dprops = _
      congr 1
      funext m p
      exact aggPropStep_eq cp.chunk_id m p
    rw [this]

theorem aggState_oprops_eq (cps : List ChunkProposal) (st : AggState) :
    (cps.foldl aggChunkStep st).oprops =
    (taggedOProps cps).foldl (gStep aggPropValidP aggPropKp aggPropFp aggPropUp)
      st.oprops := by
  induction cps generalizing st with
  | nil => simp [taggedOProps]
  | cons cp t ih =>
    rw [List.foldl_cons, ih]
    unfold taggedOProps
    rw [List.flatMap_cons, List.foldl_append, List.foldl_map]
    have : (aggChunkStep st cp).oprops =
        cp.object_properties.foldl
          (fun m p => gStep aggPropValidP aggPropKp aggPropFp aggPropUp m
            (cp.chunk_id, p)) st.oprops := by
      show cp.object_properties.foldl (aggPropStep cp.chunk_id) st.oprops = _
      congr 1
      funext m p
      exact aggPropStep_eq cp.chunk_id m p
    rw [this]

theorem aggState_events_eq (cps : List ChunkProposal) (st : AggState) :
    (cps.foldl aggChunkStep st).events =
    (taggedEvents cps).foldl (gStep aggEvValidP aggEvKp aggEvFp aggEvUp)
      st.events := by
  induction cps generalizing st with
  | nil => simp [taggedEvents]
  | cons cp t ih =>
    rw [List.foldl_cons, ih]
    unfold taggedEvents
    rw [List.flatMap_cons, List.foldl_append, List.foldl_map]
    have : (aggChunkStep st cp).events =
        cp.events.foldl
          (fun m e => gStep aggEvValidP aggEvKp aggEvFp aggEvUp m
            (cp.chunk_id, e)) st.events := by
      show cp.events.foldl (aggEvStep cp.chunk_id) st.events = _
      congr 1
      funext m e
      exact aggEvStep_eq cp.chunk_id m e
    rw [this]

/-! ## Claim C3: order-independence of the aggregation dedup sets -/

theorem agg_classKeys_iff (cps : List ChunkProposal) (k : String) :
    k ∈ (aggregate_chunk_proposals cps).classes.map (fun c => aggKey c.name) ↔
    ∃ cp ∈ cps, ∃ c ∈ cp.classes, c.name ≠ "" ∧ aggKey c.name = k := by
  have hM : (aggregate_chunk_proposals cps).classes =
      valuesA ((cps.foldl aggChunkStep ⟨[], [], [], [], [], []⟩).classes) := rfl
  rw [hM, aggState_classes_eq]
  set M := (taggedClasses cps).foldl
    (gStep aggClsValidP aggClsKp aggClsFp aggClsUp) [] with hMdef
  have hQ : ∀ kv ∈ M, aggKey kv.2.name = kv.1 := by
    apply gStep_fold_pair_inv (fun kv : String × AClass =>
      aggKey kv.2.name = kv.1)
    · intro pc _ _
      rfl
    · intro pc _ k' v hv
      exact hv
    · intro kv hkv
      simp at hkv
  have hmapeq : (valuesA M).map (fun c => aggKey c.name) = M.map Prod.fst := by
    rw [valuesA, List.map_map]
    apply map_congr_mem
    intro kv hkv
    exact hQ kv hkv
  rw [hmapeq, gStep_fold_mem_keys]
  simp only [List.map_nil, List.not_mem_nil, false_or]
  unfold taggedClasses
  constructor
  · rintro ⟨pc, hpc, hv, hk⟩
    rw [List.mem_flatMap] at hpc
    obtain ⟨cp, hcp, hmem⟩ := hpc
    rw [List.mem_map] at hmem
    obtain ⟨c, hc, rfl⟩ := hmem
    refine ⟨cp, hcp, c, hc, ?_, hk⟩
    simpa [aggClsValidP] using hv
  · rintro ⟨cp, hcp, c, hc, hne, hk⟩
    refine ⟨(cp.chunk_id, c), ?_, by simpa [aggClsValidP] using hne, hk⟩
    rw [List.mem_flatMap]
    exact ⟨cp, hcp, List.mem_map.2 ⟨c, hc, rfl⟩⟩

theorem agg_dpropKeys_iff (cps : List ChunkProposal)
    (k : String × String × String) :
    k ∈ (aggregate_chunk_proposals cps).datatype_properties.map
      (fun p => (aggKey p.domain, aggKey p.name, aggKey p.range)) ↔
    ∃ cp ∈ cps, ∃ p ∈ cp.datatype_properties,
      ¬(p.domain = "" ∨ p.name = "" ∨ p.range = "") ∧
      (aggKey p.domain, aggKey p.name, aggKey p.range) = k := by
  have hM : (aggregate_chunk_proposals cps).datatype_properties =
      valuesA ((cps.foldl aggChunkStep ⟨[], [], [], [], [], []⟩).dprops) := rfl
  rw [hM, aggState_dprops_eq]
  set M := (taggedDProps cps).foldl
    (gStep aggPropValidP aggPropKp aggPropFp aggPropUp) [] with hMdef
  have hQ : ∀ kv ∈ M, (aggKey kv.2.domain, aggKey kv.2.name,
      aggKey kv.2.range) = kv.1 := by
    apply gStep_fold_pair_inv (fun kv : (String × String × String) × AProp =>
      (aggKey kv.2.domain, aggKey kv.2.name, aggKey kv.2.range) = kv.1)
    · intro pp _ _
      rfl
    · intro pp _ k' v hv
      exact hv
    · intro kv hkv
      simp at hkv
  have hmapeq : (valuesA M).map
      (fun p => (aggKey p.domain, aggKey p.name, aggKey p.range)) =
      M.map Prod.fst := by
    rw [valuesA, List.map_map]
    apply map_congr_mem
    intro kv hkv
    exact hQ kv hkv
  rw [hmapeq, gStep_fold_mem_keys]
  simp only [List.map_nil, List.not_mem_nil, false_or]
  unfold taggedDProps
  constructor
  · rintro ⟨pp, hpp, hv, hk⟩
    rw [List.mem_flatMap] at hpp
    obtain ⟨cp, hcp, hmem⟩ := hpp
    rw [List.mem_map] at hmem
    obtain ⟨p, hp, rfl⟩ := hmem
    refine ⟨cp, hcp, p, hp, ?_, hk⟩
    simp only [aggPropValidP] at hv
    simp only [Bool.not_eq_true'] at hv
    intro hor
    rcases hor with h | h | h <;> simp [h] at hv
  · rintro ⟨cp, hcp, p, hp, hne, hk⟩
    refine ⟨(cp.chunk_id, p), ?_, ?_, hk⟩
    · rw [List.mem_flatMap]
      exact ⟨cp, hcp, List.mem_map.2 ⟨p, hp, rfl⟩⟩
    · simp only [aggPropValidP]
      simp only [Bool.not_eq_true']
      push_neg at hne
      simp [hne.1, hne.2.1, hne.2.2]

theorem agg_opropKeys_iff (cps : List ChunkProposal)
    (k : String × String × String) :
    k ∈ (aggregate_chunk_proposals cps).object_properties.map
      (fun p => (aggKey p.domain, aggKey p.name, aggKey p.range)) ↔
    ∃ cp ∈ cps, ∃ p ∈ cp.object_properties,
      ¬(p.domain = "" ∨ p.name = "" ∨ p.range = "") ∧
      (aggKey p.domain, aggKey p.name, aggKey p.range) = k := by
  have hM : (aggregate_chunk_proposals cps).object_properties =
      valuesA ((cps.foldl aggChunkStep ⟨[], [], [], [], [], []⟩).oprops) := rfl
  rw [hM, aggState_oprops_eq]
  set M := (taggedOProps cps).foldl
    (gStep aggPropValidP aggPropKp aggPropFp aggPropUp) [] with hMdef
  have hQ : ∀ kv ∈ M, (aggKey kv.2.domain, aggKey kv.2.name,
      aggKey kv.2.range) = kv.1 := by
    apply gStep_fold_pair_inv (fun kv : (String × String × String) × AProp =>
      (aggKey kv.2.domain, aggKey kv.2.name, aggKey kv.2.range) = kv.1)
    · intro pp _ _
      rfl
    · intro pp _ k' v hv
      exact hv
    · intro kv hkv
      simp at hkv
  have hmapeq : (valuesA M).map
      (fun p => (aggKey p.domain, aggKey p.name, aggKey p.range)) =
      M.map Prod.fst := by
    rw [valuesA, List.map_map]
    apply map_congr_mem
    intro kv hkv
    exact hQ kv hkv
  rw [hmapeq, gStep_fold_mem_keys]
  simp only [List.map_nil, List.not_mem_nil, false_or]
  unfold taggedOProps
  constructor
  · rintro ⟨pp, hpp, hv, hk⟩
    rw [List.mem_flatMap] at hpp
    obtain ⟨cp, hcp, hmem⟩ := hpp
    rw [List.mem_map] at hmem
    obtain ⟨p, hp, rfl⟩ := hmem
    refine ⟨cp, hcp, p, hp, ?_, hk⟩
    simp only [aggPropValidP] at hv
    simp only [Bool.not_eq_true'] at hv
    intro hor
    rcases hor with h | h | h <;> simp [h] at hv
  · rintro ⟨cp, hcp, p, hp, hne, hk⟩
    refine ⟨(cp.chunk_id, p), ?_, ?_, hk⟩
    · rw [List.mem_flatMap]
      exact ⟨cp, hcp, List.mem_map.2 ⟨p, hp, rfl⟩⟩
    · simp only [aggPropValidP]
      simp only [Bool.not_eq_true']
      push_neg at hne
      simp [hne.1, hne.2.1, hne.2.2]

theorem agg_eventKeys_iff (cps : List ChunkProposal) (k : String) :
    k ∈ (aggregate_chunk_proposals cps).events.map (fun e => aggKey e.name) ↔
    ∃ cp ∈ cps, ∃ e ∈ cp.events, e.name ≠ "" ∧ aggKey e.name = k := by
  have hM : (aggregate_chunk_proposals cps).events =
      valuesA ((cps.foldl aggChunkStep ⟨[], [], [], [], [], []⟩).events) := rfl
  rw [hM, aggState_events_eq]
  set M := (taggedEvents cps).foldl
    (gStep aggEvValidP aggEvKp aggEvFp aggEvUp) [] with hMdef
  have hQ : ∀ kv ∈ M, aggKey kv.2.name = kv.1 := by
    apply gStep_fold_pair_inv (fun kv : String × AEvent =>
      aggKey kv.2.name = kv.1)
    · intro pe _ _
      rfl
    · intro pe _ k' v hv
      exact hv
    · intro kv hkv
      simp at hkv
  have hmapeq : (valuesA M).map (fun e => aggKey e.name) = M.map Prod.fst := by
    rw [valuesA, List.map_map]
    apply map_congr_mem
    intro kv hkv
    exact hQ kv hkv
  rw [hmapeq, gStep_fold_mem_keys]
  simp only [List.map_nil, List.not_mem_nil, false_or]
  unfold taggedEvents
  constructor
  · rintro ⟨pe, hpe, hv, hk⟩
    rw [List.mem_flatMap] at hpe
    obtain ⟨cp, hcp, hmem⟩ := hpe
    rw [List.mem_map] at hmem
    obtain ⟨e, he, rfl⟩ := hmem
    refine ⟨cp, hcp, e, he, ?_, hk⟩
    simpa [aggEvValidP] using hv
  · rintro ⟨cp, hcp, e, he, hne, hk⟩
    refine ⟨(cp.chunk_id, e), ?_, by simpa [aggEvValidP] using hne, hk⟩
    rw [List.mem_flatMap]
    exact ⟨cp, hcp, List.mem_map.2 ⟨e, he, rfl⟩⟩

/-- C3: for any two permutations of the same chunk-proposal list, the
aggregator produces the same *sets* of surviving classes, datatype
properties, object properties and events, where an output entry is
identified by its dedup key — the lower-cased stripped name for classes
and events, the lower-cased stripped (domain, name, range) triple for
properties. -/
theorem C3_aggregation_order_independent (cps cps' : List ChunkProposal)
    (hperm : List.Perm cps cps') :
    (∀ k : String,
      k ∈ (aggregate_chunk_proposals cps).classes.map (fun c => aggKey c.name) ↔
      k ∈ (aggregate_chunk_proposals cps').classes.map (fun c => aggKey c.name)) ∧
    (∀ k : String × String × String,
      k ∈ (aggregate_chunk_proposals cps).datatype_properties.map
        (fun p => (aggKey p.domain, aggKey p.name, aggKey p.range)) ↔
      k ∈ (aggregate_chunk_proposals cps').datatype_properties.map
        (fun p => (aggKey p.domain, aggKey p.name, aggKey p.range))) ∧
    (∀ k : String × String × String,
      k ∈ (aggregate_chunk_proposals cps).object_properties.map
        (fun p => (aggKey p.domain, aggKey p.name, aggKey p.range)) ↔
      k ∈ (aggregate_chunk_proposals cps').object_properties.map
        (fun p => (aggKey p.domain, aggKey p.name, aggKey p.range))) ∧
    (∀ k : String,
      k ∈ (aggregate_chunk_proposals cps).events.map (fun e => aggKey e.name) ↔
      k ∈ (aggregate_chunk_proposals cps').events.map (fun e => aggKey e.name)) := by
  refine ⟨?_, ?_, ?_, ?_⟩
  · intro k
    rw [agg_classKeys_iff, agg_classKeys_iff]
    constructor
    · rintro ⟨cp, hcp, rest⟩
      exact ⟨cp, hperm.mem_iff.1 hcp, rest⟩
    · rintro ⟨cp, hcp, rest⟩
      exact ⟨cp, hperm.mem_iff.2 hcp, rest⟩
  · intro k
    rw [agg_dpropKeys_iff, agg_dpropKeys_iff]
    constructor
    · rintro ⟨cp, hcp, rest⟩
      exact ⟨cp, hperm.mem_iff.1 hcp, rest⟩
    · rintro ⟨cp, hcp, rest⟩
      exact ⟨cp, hperm.mem_iff.2 hcp, rest⟩
  · intro k
    rw [agg_opropKeys_iff, agg_opropKeys_iff]
    constructor
    · rintro ⟨cp, hcp, rest⟩
      exact ⟨cp, hperm.mem_iff.1 hcp, rest⟩
    · rintro ⟨cp, hcp, rest⟩
      exact ⟨cp, hperm.mem_iff.2 hcp, rest⟩
  · intro k
    rw [agg_eventKeys_iff, agg_eventKeys_iff]
    constructor
    · rintro ⟨cp, hcp, rest⟩
      exact ⟨cp, hperm.mem_iff.1 hcp, rest⟩
    · rintro ⟨cp, hcp, rest⟩
      exact ⟨cp, hperm.mem_iff.2 hcp, rest⟩

/-- First chunk proposal of the C3 witness. -/
def c3Cp1 : ChunkProposal :=
  ⟨"c1", [], [], [⟨"Person", "x", []⟩],
   [⟨"age", "Person", "integer", "", []⟩], [], [⟨"Hired", ["a"], [], "", []⟩]⟩

/-- Second chunk proposal of the C3 witness. -/
def c3Cp2 : ChunkProposal :=
  ⟨"c2", [], [], [⟨"person", "longer description", []⟩, ⟨"Order", "", []⟩],
   [], [⟨"contains", "Order", "LineItem", "", []⟩], []⟩

/-- C3 witness: the order-independence theorem applied to the two-chunk
list and its swap. -/
theorem C3_aggregation_order_independent_witness :
    ("person" ∈ (aggregate_chunk_proposals [c3Cp1, c3Cp2]).classes.map
        (fun c => aggKey c.name) ↔
     "person" ∈ (aggregate_chunk_proposals [c3Cp2, c3Cp1]).classes.map
        (fun c => aggKey c.name)) ∧
    (("order", "contains", "lineitem") ∈
        (aggregate_chunk_proposals [c3Cp1, c3Cp2]).object_properties.map
          (fun p => (aggKey p.domain, aggKey p.name, aggKey p.range)) ↔
     ("order", "contains", "lineitem") ∈
        (aggregate_chunk_proposals [c3Cp2, c3Cp1]).object_properties.map
          (fun p => (aggKey p.domain, aggKey p.name, aggKey p.range))) :=
  ⟨(C3_aggregation_order_independent [c3Cp1, c3Cp2] [c3Cp2, c3Cp1]
      (List.Perm.swap c3Cp2 c3Cp1 [])).1 "person",
   (C3_aggregation_order_independent [c3Cp1, c3Cp2] [c3Cp2, c3Cp1]
      (List.Perm.swap c3Cp2 c3Cp1 [])).2.2.1 ("order", "contains", "lineitem")⟩

/-! ## Claim C10: single-sighting events keep their lists verbatim -/

/-- C10: an event whose dedup key occurs exactly once — once among all
chunk proposals during aggregation, or only in the proposal (its key
absent from the previous card) during a merge — ends up in the output
with its actors and effects lists exactly as supplied (order and
duplicates preserved); the sorted set-union normalization only ever
runs when the same key is met a second time. -/
theorem C10_single_sighting_events :
    (∀ (cps : List ChunkProposal) (k : String) (cid0 : String) (e0 : CPEvent),
      (taggedEvents cps).filter
        (fun pe => (pe.2.name != "") && decide (aggKey pe.2.name = k)) =
        [(cid0, e0)] →
      ∃ v ∈ (aggregate_chunk_proposals cps).events,
        v.name = e0.name ∧ v.actors = e0.actors ∧ v.effects = e0.effects) ∧
    (∀ (now : String) (prev : SchemaCard) (prop : AggProposal)
       (nsArg : Option String) (k : String) (e0 : PEvent),
      (∀ e ∈ prev.events, plower (pstrip e.name) ≠ k) →
      prop.events.filter (fun e => (plower (pstrip e.name) != "") &&
        decide (plower (pstrip e.name) = k)) = [e0] →
      ∃ v ∈ (schema_card_from_proposal now prev prop nsArg).events,
        v.name = e0.name ∧ v.actors = e0.actors ∧ v.effects = e0.effects) := by
  constructor
  · intro cps k cid0 e0 hfilter
    have hM : (aggregate_chunk_proposals cps).events =
        valuesA ((cps.foldl aggChunkStep ⟨[], [], [], [], [], []⟩).events) := rfl
    rw [hM, aggState_events_eq]
    have hlook : lookupA k ((taggedEvents cps).foldl
        (gStep aggEvValidP aggEvKp aggEvFp aggEvUp) []) =
        some (aggEvFp (cid0, e0)) := by
      exact gStep_fold_lookupA_single (taggedEvents cps) [] rfl hfilter
    refine ⟨aggEvFp (cid0, e0), ?_, rfl, rfl, rfl⟩
    have := mem_of_lookupA_eq_some hlook
    exact List.mem_map.2 ⟨_, this, rfl⟩
  · intro now prev prop nsArg k e0 hprev hfilter
    rw [merge_events_def, evPrevStep_eq, evPropStep_eq]
    have hnone : lookupA k (prev.events.foldl
        (gPrevStep evValidC evKc evFc) []) = none := by
      rw [lookupA_eq_none_iff, gPrevStep_fold_mem_keys]
      rintro (h | ⟨c, hc, _, hk⟩)
      · simp at h
      · exact hprev c hc hk
    have hlook : lookupA k (prop.events.foldl
        (gStep evValidP evKp evFp evUp)
        (prev.events.foldl (gPrevStep evValidC evKc evFc) [])) =
        some (evFp e0) := by
      exact gStep_fold_lookupA_single prop.events
        (prev.events.foldl (gPrevStep evValidC evKc evFc) []) hnone hfilter
    refine ⟨evFp e0, ?_, rfl, rfl, rfl⟩
    rw [mem_sortOn]
    have := mem_of_lookupA_eq_some hlook
    exact List.mem_map.2 ⟨_, this, rfl⟩

/-- Chunk proposal of the C10 witness: one event, actors unsorted with
a duplicate. -/
def c10Cp : ChunkProposal :=
  ⟨"c1", [], [], [], [], [], [⟨"Shipped", ["b", "a", "a"], ["x"], "", []⟩]⟩

/-- Proposal of the C10 witness merge part: same event shape. -/
def c10Prop : AggProposal :=
  { classes := [], datatype_properties := [], object_properties := [],
    events := [⟨"Shipped", ["b", "a", "a"], ["x"], none, none⟩],
    merge_suggestions := [], warnings := [] }

/-- C10 witness: a single-sighting event keeps `["b", "a", "a"]`
verbatim, both in aggregation and in a merge into a card without the
key. -/
theorem C10_single_sighting_events_witness :
    (∃ v ∈ (aggregate_chunk_proposals [c10Cp]).events,
      v.name = "Shipped" ∧ v.actors = ["b", "a", "a"] ∧ v.effects = ["x"]) ∧
    (∃ v ∈ (schema_card_from_proposal "t" (emptyCard "t0") c10Prop none).events,
      v.name = "Shipped" ∧ v.actors = ["b", "a", "a"] ∧ v.effects = ["x"]) :=
  ⟨C10_single_sighting_events.1 [c10Cp] "shipped" "c1"
      ⟨"Shipped", ["b", "a", "a"], ["x"], "", []⟩ (by decide),
   C10_single_sighting_events.2 "t" (emptyCard "t0") c10Prop none "shipped"
      ⟨"Shipped", ["b", "a", "a"], ["x"], none, none⟩ (by decide) (by decide)⟩

/-! ## Claim C8: unknown slugs during composition -/

theorem compose_warnings_mono (parse : String → TtlGraph) (st : CatalogState) :
    ∀ (slugs : List String) (acc : ComposeSt) (w : String),
      w ∈ acc.merged.warnings →
      w ∈ (slugs.foldl (composeStep parse st) acc).merged.warnings := by
  intro slugs
  induction slugs with
  | nil => exact fun acc w hw => hw
  | cons slug t ih =>
    intro acc w hw
    rw [List.foldl_cons]
    apply ih
    unfold composeStep
    cases h : slugLookup st slug with
    | none =>
      simp only
      exact List.mem_append_left _ hw
    | some entry => exact hw

theorem compose_warning_mem (parse : String → TtlGraph) (st : CatalogState) :
    ∀ (slugs : List String) (acc : ComposeSt) (s : String),
      s ∈ slugs → slugLookup st s = none →
      ("Baseline '" ++ s ++ "' not found in catalog.") ∈
        (slugs.foldl (composeStep parse st) acc).merged.warnings := by
  intro slugs
  induction slugs with
  | nil =>
    intro acc s hs
    simp at hs
  | cons slug t ih =>
    intro acc s hs hnone
    rw [List.foldl_cons]
    rcases List.mem_cons.1 hs with h | h
    · subst h
      apply compose_warnings_mono
      unfold composeStep
      rw [hnone]
      simp only
      exact List.mem_append_right _ (List.mem_singleton.2 rfl)
    · exact ih _ s h hnone

theorem compose_seen_filter (parse : String → TtlGraph) (st : CatalogState) :
    ∀ (slugs : List String) (acc acc' : ComposeSt),
      acc.seenC = acc'.seenC → acc.seenD = acc'.seenD → acc.seenO = acc'.seenO →
      (slugs.foldl (composeStep parse st) acc).seenC =
        ((slugs.filter (fun s => (slugLookup st s).isSome)).foldl
          (composeStep parse st) acc').seenC ∧
      (slugs.foldl (composeStep parse st) acc).seenD =
        ((slugs.filter (fun s => (slugLookup st s).isSome)).foldl
          (composeStep parse st) acc').seenD ∧
      (slugs.foldl (composeStep parse st) acc).seenO =
        ((slugs.filter (fun s => (slugLookup st s).isSome)).foldl
          (composeStep parse st) acc').seenO := by
  intro slugs
  induction slugs with
  | nil => exact fun acc acc' h1 h2 h3 => ⟨h1, h2, h3⟩
  | cons slug t ih =>
    intro acc acc' h1 h2 h3
    rw [List.foldl_cons, List.filter_cons]
    cases h : slugLookup st slug with
    | none =>
      rw [if_neg (by simp)]
      apply ih
      · show (composeStep parse st acc slug).seenC = _
        unfold composeStep
        rw [h]
        exact h1
      · show (composeStep parse st acc slug).seenD = _
        unfold composeStep
        rw [h]
        exact h2
      · show (composeStep parse st acc slug).seenO = _
        unfold composeStep
        rw [h]
        exact h3
    | some entry =>
      rw [if_pos (by rfl)]
      rw [List.foldl_cons]
      apply ih
      · show (composeStep parse st acc slug).seenC =
          (composeStep parse st acc' slug).seenC
        unfold composeStep
        rw [h]
        simp only
        rw [h1]
      · show (composeStep parse st acc slug).seenD =
          (composeStep parse st acc' slug).seenD
        unfold composeStep
        rw [h]
        simp only
        rw [h2]
      · show (composeStep parse st acc slug).seenO =
          (composeStep parse st acc' slug).seenO
        unfold composeStep
        rw [h]
        simp only
        rw [h3]

/-- C8: composing never raises — for any slug list containing an
unregistered slug, the output card carries the warning naming the
unknown slug, and the composed classes and properties are exactly those
composed from the resolvable slugs alone. -/
theorem C8_unknown_slug_nonfatal (parse : String → TtlGraph) (st : CatalogState)
    (cnow : String) (slugs : List String) (tns : Option String) (s : String)
    (hs : s ∈ slugs) (hnone : slugLookup st s = none) :
    ("Baseline '" ++ s ++ "' not found in catalog.") ∈
      (compose_baselines parse st cnow slugs tns).warnings ∧
    (compose_baselines parse st cnow slugs tns).classes =
      (compose_baselines parse st cnow
        (slugs.filter (fun s => (slugLookup st s).isSome)) tns).classes ∧
    (compose_baselines parse st cnow slugs tns).datatype_properties =
      (compose_baselines parse st cnow
        (slugs.filter (fun s => (slugLookup st s).isSome))
        tns).datatype_properties ∧
    (compose_baselines parse st cnow slugs tns).object_properties =
      (compose_baselines parse st cnow
        (slugs.filter (fun s => (slugLookup st s).isSome))
        tns).object_properties := by
  have hfilter := compose_seen_filter parse st slugs
    ⟨composeInit cnow tns, [], [], []⟩ ⟨composeInit cnow tns, [], [], []⟩
    rfl rfl rfl
  refine ⟨?_, ?_, ?_, ?_⟩
  · show _ ∈ (slugs.foldl (composeStep parse st)
      ⟨composeInit cnow tns, [], [], []⟩).merged.warnings
    exact compose_warning_mem parse st slugs _ s hs hnone
  · show sortOn (fun x : ClassEntry => plower x.name) (valuesA
      (slugs.foldl (composeStep parse st)
        ⟨composeInit cnow tns, [], [], []⟩).seenC) = _
    rw [hfilter.1]
    rfl
  · show sortOn propSortKey (valuesA
      (slugs.foldl (composeStep parse st)
        ⟨composeInit cnow tns, [], [], []⟩).seenD) = _
    rw [hfilter.2.1]
    rfl
  · show sortOn propSortKey (valuesA
      (slugs.foldl (composeStep parse st)
        ⟨composeInit cnow tns, [], [], []⟩).seenO) = _
    rw [hfilter.2.2]
    rfl

/-- C8 witness: composing ["foaf", "unknown_slug"] against the
registered foaf-only catalog records the not-found warning and yields
the same classes/properties as composing ["foaf"] alone. -/
theorem C8_unknown_slug_nonfatal_witness :
    ("Baseline 'unknown_slug' not found in catalog.") ∈
      (compose_baselines c5Parse c5St "t" ["foaf", "unknown_slug"]
        none).warnings ∧
    (compose_baselines c5Parse c5St "t" ["foaf", "unknown_slug"]
        none).classes =
      (compose_baselines c5Parse c5St "t"
        (["foaf", "unknown_slug"].filter
          (fun s => (slugLookup c5St s).isSome)) none).classes := by
  have h := C8_unknown_slug_nonfatal c5Parse c5St "t" ["foaf", "unknown_slug"]
    none "unknown_slug" (by decide) (by decide)
  exact ⟨h.1, h.2.1⟩

/-! ## Claim C6: first-seen-wins composition is set-stable -/

/-- The schema card a slug resolves to during composition, when
registered. -/
def slugCard (parse : String → TtlGraph) (st : CatalogState) (slug : String) :
    Option SchemaCard :=
  (slugLookup st slug).map (fun entry =>
    ttl_to_schema_card (parse ((lookupA entry.path st.files).getD ""))
      slug (some entry.ns))

theorem firstSeen_fold_mem_keys {kappa alpha : Type} [DecidableEq kappa]
    {key : alpha → kappa} :
    ∀ (l : List alpha) (m : List (kappa × alpha)) (k : kappa),
      k ∈ (l.foldl (firstSeenStep key) m).map Prod.fst ↔
        k ∈ m.map Prod.fst ∨ ∃ c ∈ l, key c = k := by
  intro l
  induction l with
  | nil => simp
  | cons c t ih =>
    intro m k
    rw [List.foldl_cons, ih]
    have hstep : k ∈ (firstSeenStep key m c).map Prod.fst ↔
        k ∈ m.map Prod.fst ∨ key c = k := by
      unfold firstSeenStep
      split
      · rename_i hs
        constructor
        · exact Or.inl
        · rintro (h | h)
          · exact h
          · subst h
            rw [Option.isSome_iff_exists] at hs
            obtain ⟨v, hv⟩ := hs
            by_contra hk
            rw [lookupA_eq_none_iff.2 hk] at hv
            exact Option.noConfusion hv
      · rw [List.map_append]
        simp only [List.mem_append, List.map_cons, List.map_nil,
          List.mem_singleton]
        constructor
        · rintro (h | h)
          · exact Or.inl h
          · exact Or.inr h.symm
        · rintro (h | h)
          · exact Or.inl h
          · exact Or.inr h.symm
    rw [hstep]
    constructor
    · rintro ((h | h) | ⟨c', hc', hk⟩)
      · exact Or.inl h
      · exact Or.inr ⟨c, List.mem_cons_self _ _, h⟩
      · exact Or.inr ⟨c', List.mem_cons_of_mem _ hc', hk⟩
    · rintro (h | ⟨c', hc', hk⟩)
      · exact Or.inl (Or.inl h)
      · rcases List.mem_cons.1 hc' with h' | h'
        · exact Or.inl (Or.inr (h' ▸ hk))
        · exact Or.inr ⟨c', h', hk⟩

theorem compose_classKeys_iff (parse : String → TtlGraph) (st : CatalogState) :
    ∀ (slugs : List String) (acc : ComposeSt) (k : String),
      k ∈ ((slugs.foldl (composeStep parse st) acc).seenC).map Prod.fst ↔
      k ∈ acc.seenC.map Prod.fst ∨
        ∃ slug ∈ slugs, ∃ card, slugCard parse st slug = some card ∧
          ∃ c ∈ card.classes, composeClsKey c = k := by
  intro slugs
  induction slugs with
  | nil => simp
  | cons slug t ih =>
    intro acc k
    rw [List.foldl_cons, ih]
    have hstep : k ∈ (composeStep parse st acc slug).seenC.map Prod.fst ↔
        k ∈ acc.seenC.map Prod.fst ∨
          ∃ card, slugCard parse st slug = some card ∧
            ∃ c ∈ card.classes, composeClsKey c = k := by
      unfold composeStep
      cases h : slugLookup st slug with
      | none =>
        simp only
        constructor
        · exact Or.inl
        · rintro (hh | ⟨card, hcard, _⟩)
          · exact hh
          · rw [slugCard, h] at hcard
            exact Option.noConfusion hcard
      | some entry =>
        simp only
        rw [firstSeen_fold_mem_keys]
        constructor
        · rintro (hh | ⟨c, hc, hk⟩)
          · exact Or.inl hh
          · refine Or.inr ⟨_, ?_, c, hc, hk⟩
            rw [slugCard, h]
            rfl
        · rintro (hh | ⟨card, hcard, c, hc, hk⟩)
          · exact Or.inl hh
          · rw [slugCard, h] at hcard
            obtain rfl : ttl_to_schema_card
                (parse ((lookupA entry.path st.files).getD "")) slug
                (some entry.ns) = card := by injection hcard
            exact Or.inr ⟨c, hc, hk⟩
    rw [hstep]
    constructor
    · rintro ((h | h) | ⟨s', hs', rest⟩)
      · exact Or.inl h
      · exact Or.inr ⟨slug, List.mem_cons_self _ _, h⟩
      · exact Or.inr ⟨s', List.mem_cons_of_mem _ hs', rest⟩
    · rintro (h | ⟨s', hs', rest⟩)
      · exact Or.inl (Or.inl h)
      · rcases List.mem_cons.1 hs' with h' | h'
        · exact Or.inl (Or.inr (h' ▸ rest))
        · exact Or.inr ⟨s', h', rest⟩

theorem compose_propKeys_iff (parse : String → TtlGraph) (st : CatalogState)
    (pick : ComposeSt → List ((String × String × String) × PropEntry))
    (pickCard : SchemaCard → List PropEntry)
    (hpick : ∀ acc slug, pick (composeStep parse st acc slug) =
      match slugLookup st slug with
      | none => pick acc
      | some entry =>
        ((pickCard (ttl_to_schema_card
          (parse ((lookupA entry.path st.files).getD "")) slug
          (some entry.ns))).foldl (firstSeenStep composePropKey) (pick acc))) :
    ∀ (slugs : List String) (acc : ComposeSt) (k : String × String × String),
      k ∈ ((slugs.foldl (composeStep parse st) acc) |> pick).map Prod.fst ↔
      k ∈ (pick acc).map Prod.fst ∨
        ∃ slug ∈ slugs, ∃ card, slugCard parse st slug = some card ∧
          ∃ p ∈ pickCard card, composePropKey p = k := by
  intro slugs
  induction slugs with
  | nil => simp
  | cons slug t ih =>
    intro acc k
    rw [List.foldl_cons, ih]
    have hstep : k ∈ (pick (composeStep parse st acc slug)).map Prod.fst ↔
        k ∈ (pick acc).map Prod.fst ∨
          ∃ card, slugCard parse st slug = some card ∧
            ∃ p ∈ pickCard card, composePropKey p = k := by
      rw [hpick]
      cases h : slugLookup st slug with
      | none =>
        constructor
        · exact Or.inl
        · rintro (hh | ⟨card, hcard, _⟩)
          · exact hh
          · rw [slugCard, h] at hcard
            exact Option.noConfusion hcard
      | some entry =>
        rw [firstSeen_fold_mem_keys]
        constructor
        · rintro (hh | ⟨p, hp, hk⟩)
          · exact Or.inl hh
          · refine Or.inr ⟨_, ?_, p, hp, hk⟩
            rw [slugCard, h]
            rfl
        · rintro (hh | ⟨card, hcard, p, hp, hk⟩)
          · exact Or.inl hh
          · rw [slugCard, h] at hcard
            obtain rfl : ttl_to_schema_card
                (parse ((lookupA entry.path st.files).getD "")) slug
                (some entry.ns) = card := by injection hcard
            exact Or.inr ⟨p, hp, hk⟩
    rw [hstep]
    constructor
    · rintro ((h | h) | ⟨s', hs', rest⟩)
      · exact Or.inl h
      · exact Or.inr ⟨slug, List.mem_cons_self _ _, h⟩
      · exact Or.inr ⟨s', List.mem_cons_of_mem _ hs', rest⟩
    · rintro (h | ⟨s', hs', rest⟩)
      · exact Or.inl (Or.inl h)
      · rcases List.mem_cons.1 hs' with h' | h'
        · exact Or.inl (Or.inr (h' ▸ rest))
        · exact Or.inr ⟨s', h', rest⟩

theorem compose_seenC_pair_inv (parse : String → TtlGraph) (st : CatalogState)
    {Q : (String × ClassEntry) → Prop}
    (hcard : ∀ g slug ns, ∀ c ∈ (ttl_to_schema_card g slug ns).classes,
      Q (composeClsKey c, c)) :
    ∀ (slugs : List String) (acc : ComposeSt),
      (∀ kv ∈ acc.seenC, Q kv) →
      ∀ kv ∈ (slugs.foldl (composeStep parse st) acc).seenC, Q kv := by
  intro slugs
  induction slugs with
  | nil => exact fun acc hacc => hacc
  | cons slug t ih =>
    intro acc hacc
    rw [List.foldl_cons]
    apply ih
    unfold composeStep
    cases h : slugLookup st slug with
    | none => exact hacc
    | some entry =>
      intro kv hkv
      refine firstSeenStep_fold_pair_inv _ ?_ hacc kv hkv
      intro c hc
      exact hcard _ _ _ c hc

theorem compose_seenDO_pair_inv (parse : String → TtlGraph) (st : CatalogState)
    (pick : ComposeSt → List ((String × String × String) × PropEntry))
    (pickCard : SchemaCard → List PropEntry)
    (hpick : ∀ acc slug, pick (composeStep parse st acc slug) =
      match slugLookup st slug with
      | none => pick acc
      | some entry =>
        ((pickCard (ttl_to_schema_card
          (parse ((lookupA entry.path st.files).getD "")) slug
          (some entry.ns))).foldl (firstSeenStep composePropKey) (pick acc)))
    {Q : ((String × String × String) × PropEntry) → Prop}
    (hcard : ∀ g slug ns, ∀ p ∈ pickCard (ttl_to_schema_card g slug ns),
      Q (composePropKey p, p)) :
    ∀ (slugs : List String) (acc : ComposeSt),
      (∀ kv ∈ pick acc, Q kv) →
      ∀ kv ∈ pick (slugs.foldl (composeStep parse st) acc), Q kv := by
  intro slugs
  induction slugs with
  | nil => exact fun acc hacc => hacc
  | cons slug t ih =>
    intro acc hacc
    rw [List.foldl_cons]
    apply ih
    rw [hpick]
    cases h : slugLookup st slug with
    | none => exact hacc
    | some entry =>
      intro kv hkv
      refine firstSeenStep_fold_pair_inv _ ?_ hacc kv hkv
      intro p hp
      exact hcard _ _ _ p hp

theorem mem_sorted_values_map {kappa alpha kappa' : Type} [DecidableEq kappa]
    [PyOrd kappa'] {f : alpha → kappa} {M : List (kappa × alpha)}
    (hQ : ∀ kv ∈ M, f kv.2 = kv.1) (sk : alpha → kappa') (k : kappa) :
    k ∈ (sortOn sk (valuesA M)).map f ↔ k ∈ M.map Prod.fst := by
  constructor
  · intro h
    obtain ⟨v, hv, rfl⟩ := List.mem_map.1 h
    rw [mem_sortOn] at hv
    obtain ⟨kv, hkv, rfl⟩ := List.mem_map.1 hv
    rw [hQ kv hkv]
    exact List.mem_map_of_mem Prod.fst hkv
  · intro h
    obtain ⟨kv, hkv, rfl⟩ := List.mem_map.1 h
    apply List.mem_map.2
    refine ⟨kv.2, ?_, hQ kv hkv⟩
    rw [mem_sortOn]
    exact List.mem_map_of_mem Prod.snd hkv

/-- C6: swapping the order of two baselines changes neither the set of
composed class names nor the sets of property (domain, name, range)
keys, both compared case-insensitively (first-seen-wins only decides
which definition/origin is retained, never membership). -/
theorem C6_compose_order_set_stable (parse : String → TtlGraph)
    (st : CatalogState) (cnow cnow' : String) (tns : Option String)
    (A B : String) :
    (∀ k : String,
      k ∈ (compose_baselines parse st cnow [A, B] tns).classes.map
        composeClsKey ↔
      k ∈ (compose_baselines parse st cnow' [B, A] tns).classes.map
        composeClsKey) ∧
    (∀ k : String × String × String,
      k ∈ (compose_baselines parse st cnow [A, B]
        tns).datatype_properties.map composePropKey ↔
      k ∈ (compose_baselines parse st cnow' [B, A]
        tns).datatype_properties.map composePropKey) ∧
    (∀ k : String × String × String,
      k ∈ (compose_baselines parse st cnow [A, B]
        tns).object_properties.map composePropKey ↔
      k ∈ (compose_baselines parse st cnow' [B, A]
        tns).object_properties.map composePropKey) := by
  have hswap : ∀ (P : String → Prop),
      (∃ s ∈ [A, B], P s) ↔ (∃ s ∈ [B, A], P s) := by
    intro P
    constructor
    · rintro ⟨s, hs, hP⟩
      rcases List.mem_cons.1 hs with h | h
      · exact ⟨s, by rw [h]; simp, hP⟩
      · exact ⟨s, by simp at h; simp [h], hP⟩
    · rintro ⟨s, hs, hP⟩
      rcases List.mem_cons.1 hs with h | h
      · exact ⟨s, by rw [h]; simp, hP⟩
      · exact ⟨s, by simp at h; simp [h], hP⟩
  refine ⟨?_, ?_, ?_⟩
  · intro k
    have hkeys : ∀ (slugs : List String) (n : String),
        k ∈ (compose_baselines parse st n slugs tns).classes.map
          composeClsKey ↔
        ∃ slug ∈ slugs, ∃ card, slugCard parse st slug = some card ∧
          ∃ c ∈ card.classes, composeClsKey c = k := by
      intro slugs n
      have hQ : ∀ kv ∈ (slugs.foldl (composeStep parse st)
          ⟨composeInit n tns, [], [], []⟩).seenC, composeClsKey kv.2 = kv.1 := by
        refine compose_seenC_pair_inv parse st ?_ slugs _ ?_
        · intro g slug ns c _
          rfl
        · intro kv hkv
          simp at hkv
      have := mem_sorted_values_map hQ
        (fun x : ClassEntry => plower x.name) k
      rw [show (compose_baselines parse st n slugs tns).classes =
        sortOn (fun x : ClassEntry => plower x.name)
          (valuesA (slugs.foldl (composeStep parse st)
            ⟨composeInit n tns, [], [], []⟩).seenC) from rfl, this,
        compose_classKeys_iff]
      simp
    rw [hkeys [A, B] cnow, hkeys [B, A] cnow']
    exact hswap _
  · intro k
    have hpick : ∀ (acc : ComposeSt) (slug : String),
        (composeStep parse st acc slug).seenD =
        match slugLookup st slug with
        | none => acc.seenD
        | some entry =>
          (((ttl_to_schema_card
            (parse ((lookupA entry.path st.files).getD "")) slug
            (some entry.ns)).datatype_properties).foldl
              (firstSeenStep composePropKey) acc.seenD) := by
      intro acc slug
      unfold composeStep
      cases h : slugLookup st slug with
      | none => rfl
      | some entry => rfl
    have hkeys : ∀ (slugs : List String) (n : String),
        k ∈ (compose_baselines parse st n slugs tns).datatype_properties.map
          composePropKey ↔
        ∃ slug ∈ slugs, ∃ card, slugCard parse st slug = some card ∧
          ∃ p ∈ card.datatype_properties, composePropKey p = k := by
      intro slugs n
      have hQ : ∀ kv ∈ (slugs.foldl (composeStep parse st)
          ⟨composeInit n tns, [], [], []⟩).seenD,
          composePropKey kv.2 = kv.1 := by
        refine compose_seenDO_pair_inv parse st ComposeSt.seenD
          SchemaCard.datatype_properties hpick ?_ slugs _ ?_
        · intro g slug ns p _
          rfl
        · intro kv hkv
          simp at hkv
      have := mem_sorted_values_map hQ propSortKey k
      rw [show (compose_baselines parse st n slugs tns).datatype_properties =
        sortOn propSortKey
          (valuesA (slugs.foldl (composeStep parse st)
            ⟨composeInit n tns, [], [], []⟩).seenD) from rfl, this,
        compose_propKeys_iff parse st ComposeSt.seenD
          SchemaCard.datatype_properties hpick]
      simp
    rw [hkeys [A, B] cnow, hkeys [B, A] cnow']
    exact hswap _
  · intro k
    have hpick : ∀ (acc : ComposeSt) (slug : String),
        (composeStep parse st acc slug).seenO =
        match slugLookup st slug with
        | none => acc.seenO
        | some entry =>
          (((ttl_to_schema_card
            (parse ((lookupA entry.path st.files).getD "")) slug
            (some entry.ns)).object_properties).foldl
              (firstSeenStep composePropKey) acc.seenO) := by
      intro acc slug
      unfold composeStep
      cases h : slugLookup st slug with
      | none => rfl
      | some entry => rfl
    have hkeys : ∀ (slugs : List String) (n : String),
        k ∈ (compose_baselines parse st n slugs tns).object_properties.map
          composePropKey ↔
        ∃ slug ∈ slugs, ∃ card, slugCard parse st slug = some card ∧
          ∃ p ∈ card.object_properties, composePropKey p = k := by
      intro slugs n
      have hQ : ∀ kv ∈ (slugs.foldl (composeStep parse st)
          ⟨composeInit n tns, [], [], []⟩).seenO,
          composePropKey kv.2 = kv.1 := by
        refine compose_seenDO_pair_inv parse st ComposeSt.seenO
          SchemaCard.object_properties hpick ?_ slugs _ ?_
        · intro g slug ns p _
          rfl
        · intro kv hkv
          simp at hkv
      have := mem_sorted_values_map hQ propSortKey k
      rw [show (compose_baselines parse st n slugs tns).object_properties =
        sortOn propSortKey
          (valuesA (slugs.foldl (composeStep parse st)
            ⟨composeInit n tns, [], [], []⟩).seenO) from rfl, this,
        compose_propKeys_iff parse st ComposeSt.seenO
          SchemaCard.object_properties hpick]
      simp
    rw [hkeys [A, B] cnow, hkeys [B, A] cnow']
    exact hswap _

end OntoMcp
